import Mathlib

/-!
# Verification of the tree-lite incremental tree-builder core

A shallow embedding of the repository `CodingCat/tree-lite`.

The sources consist of `include/treelite/frontend.h` (the declaration of the
`ModelBuilder` front-end together with its documented contract) and
`src/cli_main.cc` (the CLI printer).  The implementation of `ModelBuilder`
(`frontend.cc`), the committed `Tree`/`Tree::Node` representation (`tree.h`)
and the `Operator` enumeration (`base.h`) are not part of the sources, so
those parts are modelled from the specification; every such definition is
marked `Modelled from the spec:` in its doc comment.  `PrintOp` and the
breadth-first printing loop of `CLIRunTask` are translated directly from
`src/cli_main.cc`.
-/

set_option maxHeartbeats 1000000

deriving instance DecidableEq for Except

namespace TreeLite

/-- The C++ scalar type `tl_float`.  Thresholds and leaf values are only
stored, compared and copied by the core, never computed with, so they are
modelled by `Rat`. -/
abbrev TlFloat := Rat

/-- Modelled from the spec: the comparison-operator enumeration `Operator`
(declared in `treelite/base.h`, not among the sources).  §3 of the spec lists
exactly the five values EQ, LT, LE, GT, GE; `cli_main.cc` names them
`kEQ, kLT, kLE, kGT, kGE`. -/
inductive Operator
  | kEQ | kLT | kLE | kGT | kGE
deriving DecidableEq

/-- Modelled from the spec: a draft node (§3).  A node is in exactly one of
the three states Empty / Test / Leaf; the Test and Leaf fields exist only in
their state. -/
inductive DraftNode
  | empty
  | test (feature_id : Nat) (op : Operator) (threshold : TlFloat)
      (default_left : Bool) (left_child_key : Int) (right_child_key : Int)
  | leaf (leaf_value : TlFloat)
deriving DecidableEq

/-- Modelled from the spec: a `TreeDraft` (§3): a key-addressed collection of
nodes plus an optional root designation (at most one root at any time). -/
structure TreeDraft where
  nodes : List (Int × DraftNode)
  root : Option Int
deriving DecidableEq

/-- Modelled from the spec: the builder state behind the pimpl pointer of
`ModelBuilder` (`frontend.h`): the feature-count bound recorded at
construction and the ordered collection of tree drafts. -/
structure ModelBuilder where
  num_features : Nat
  trees : List TreeDraft
deriving DecidableEq

/-- Modelled from the spec: a committed node (§3, §4.2): a dense-index node
exposing either a leaf value or the split data, plus the parent index,
absent for the root. -/
inductive CNode
  | leaf (leaf_value : TlFloat) (parent : Option Nat)
  | test (split_index : Nat) (threshold : TlFloat) (op : Operator)
      (cleft : Nat) (cright : Nat) (default_left : Bool) (parent : Option Nat)
deriving DecidableEq

/-- The parent index exposed by the committed read contract (§4.2), absent
for the root. -/
def CNode.parent : CNode → Option Nat
  | .leaf _ p => p
  | .test _ _ _ _ _ _ p => p

/-- Whether a committed node is a leaf (`Tree::Node::is_leaf`). -/
def CNode.is_leaf : CNode → Bool
  | .leaf _ _ => true
  | .test _ _ _ _ _ _ _ => false

/-- Whether a committed node is the root (`Tree::Node::is_root`); per the
read contract of §4.2 the parent index is absent exactly for the root. -/
def CNode.is_root (n : CNode) : Bool := n.parent = none

/-- Modelled from the spec: a committed tree (§3): a dense array of nodes,
index 0 the root. -/
structure CTree where
  nodes : List CNode
deriving DecidableEq

/-- Modelled from the spec: the committed ensemble `Model` (forward-declared
in `frontend.h`): an ordered sequence of committed trees. -/
structure Model where
  trees : List CTree
deriving DecidableEq

/-- Key lookup in a draft's key-addressed node collection (first match). -/
def findNode : List (Int × DraftNode) → Int → Option DraftNode
  | [], _ => none
  | (k, nd) :: rest, key => if k = key then some nd else findNode rest key

/-- Replace the node stored under a key (first match), leaving the key set
unchanged. -/
def setNode : List (Int × DraftNode) → Int → DraftNode → List (Int × DraftNode)
  | [], _, _ => []
  | (k, nd) :: rest, key, new =>
      if k = key then (k, new) :: rest else (k, nd) :: setNode rest key new

/-- The keys present in a draft. -/
def treeKeys (t : TreeDraft) : List Int := t.nodes.map Prod.fst

/-- The draft addressed by a (C++ `int`) tree index, if the index is valid. -/
def getTree (b : ModelBuilder) (tree_index : Int) : Option TreeDraft :=
  if 0 ≤ tree_index then b.trees[tree_index.toNat]? else none

/-- Replace the draft at a valid tree index. -/
def putTree (b : ModelBuilder) (tree_index : Int) (t : TreeDraft) : ModelBuilder :=
  ⟨b.num_features, b.trees.set tree_index.toNat t⟩

/-- A freshly created, empty tree draft. -/
def emptyTreeDraft : TreeDraft := ⟨[], none⟩

/-- The insertion position `CreateTree` works with: the requested index, or
the current tree count for the documented append default `-1`. -/
def createTreePos (b : ModelBuilder) (index : Int) : Int :=
  if index = -1 then b.trees.length else index

/-- Modelled from the spec: `ModelBuilder::CreateTree` (`frontend.h`): insert
a new empty draft at `index`; `-1` (the documented default) inserts at the
end; returns the resulting position, or `-1` when `index` is outside the
valid insertion range `0..=current_count`. -/
def CreateTree (b : ModelBuilder) (index : Int) : Int × ModelBuilder :=
  if 0 ≤ createTreePos b index ∧ createTreePos b index ≤ (b.trees.length : Int) then
    (createTreePos b index, ⟨b.num_features,
      b.trees.take (createTreePos b index).toNat ++
        emptyTreeDraft :: b.trees.drop (createTreePos b index).toNat⟩)
  else (-1, b)

/-- Modelled from the spec: `ModelBuilder::CreateNode`: insert an Empty node
under a fresh key; fails if the tree index is invalid or the key exists. -/
def CreateNode (b : ModelBuilder) (tree_index node_key : Int) : Bool × ModelBuilder :=
  match getTree b tree_index with
  | none => (false, b)
  | some t =>
    if node_key ∈ treeKeys t then (false, b)
    else (true, putTree b tree_index ⟨t.nodes ++ [(node_key, .empty)], t.root⟩)

/-- Modelled from the spec: `ModelBuilder::SetRootNode`: mark an existing key
as the root, unmarking any previous root; fails if the key does not exist. -/
def SetRootNode (b : ModelBuilder) (tree_index node_key : Int) : Bool × ModelBuilder :=
  match getTree b tree_index with
  | none => (false, b)
  | some t =>
    if node_key ∈ treeKeys t then
      (true, putTree b tree_index ⟨t.nodes, some node_key⟩)
    else (false, b)

/-- Modelled from the spec: `ModelBuilder::SetTestNode`: turn an Empty node
into a Test node.  Fails if the node does not exist, is not Empty, the
feature id is not below the `num_features` bound given at construction, or
the two child keys coincide (§4.1). -/
def SetTestNode (b : ModelBuilder) (tree_index node_key : Int) (feature_id : Nat)
    (op : Operator) (threshold : TlFloat) (default_left : Bool)
    (left_child_key right_child_key : Int) : Bool × ModelBuilder :=
  match getTree b tree_index with
  | none => (false, b)
  | some t =>
    match findNode t.nodes node_key with
    | some .empty =>
      if feature_id < b.num_features ∧ left_child_key ≠ right_child_key then
        (true, putTree b tree_index
          ⟨setNode t.nodes node_key
            (.test feature_id op threshold default_left left_child_key right_child_key),
           t.root⟩)
      else (false, b)
    | _ => (false, b)

/-- Modelled from the spec: `ModelBuilder::SetLeafNode`: turn an Empty node
into a Leaf node, under the same existence/state preconditions as
`SetTestNode` (§4.1). -/
def SetLeafNode (b : ModelBuilder) (tree_index node_key : Int)
    (leaf_value : TlFloat) : Bool × ModelBuilder :=
  match getTree b tree_index with
  | none => (false, b)
  | some t =>
    match findNode t.nodes node_key with
    | some .empty =>
      (true, putTree b tree_index
        ⟨setNode t.nodes node_key (.leaf leaf_value), t.root⟩)
    | _ => (false, b)

/-- The enumerated failure kinds reported by commit (§7 `StructuralError`),
plus the fuel marker of the embedded traversal (the C++ loop has no fuel;
`outOfFuel` is unreachable at the fuel budget commit uses, as the proofs
below show for every validated tree). -/
inductive CommitErr
  | missingRoot
  | danglingChild
  | revisitedKey
  | unreachableNode
  | emptyNode
  | outOfFuel
deriving DecidableEq

/-- The child keys a draft node declares: both children of a Test node,
nothing otherwise. -/
def draftChildren : DraftNode → List Int
  | .test _ _ _ _ l r => [l, r]
  | _ => []

/-- Modelled from the spec: the commit traversal (§4.1, steps 2–3): a
breadth-first walk from the root over Test children, recording visited keys
in discovery order together with the committed index of their parent
(the parent links are recomputed during this traversal, §9).  It fails on a
key visited twice (cycle or shared child) and on a child key missing from
the node collection (dangling reference). -/
def bfsDraft (nodes : List (Int × DraftNode)) :
    Nat → List (Int × Option Nat) → List (Int × Option Nat) →
    Except CommitErr (List (Int × Option Nat))
  | _, [], visited => .ok visited.reverse
  | 0, _ :: _, _ => .error .outOfFuel
  | fuel + 1, (k, p) :: rest, visited =>
    if k ∈ visited.map Prod.fst then .error .revisitedKey
    else
      match findNode nodes k with
      | none => .error .danglingChild
      | some nd =>
        bfsDraft nodes fuel
          (rest ++ (draftChildren nd).map (fun c => (c, some visited.length)))
          ((k, p) :: visited)

/-- Modelled from the spec: emission of one committed node (§4.1, steps 5–6):
a visited key still Empty is a commit failure; Test children are remapped to
their discovery-order indices. -/
def emitNode (nodes : List (Int × DraftNode)) (order : List Int) :
    Int × Option Nat → Except CommitErr CNode
  | (k, p) =>
    match findNode nodes k with
    | none => .error .danglingChild
    | some .empty => .error .emptyNode
    | some (.leaf v) => .ok (.leaf v p)
    | some (.test f op th dl l r) =>
      match order.findIdx? (fun x => x = l), order.findIdx? (fun x => x = r) with
      | some i, some j => .ok (.test f th op i j dl p)
      | _, _ => .error .danglingChild

/-- Effectful map over a list in the `Except` monad, written out explicitly:
the first failure aborts the whole map. -/
def exMapM (f : α → Except CommitErr β) : List α → Except CommitErr (List β)
  | [] => .ok []
  | a :: l =>
    match f a with
    | .error e => .error e
    | .ok b =>
      match exMapM f l with
      | .error e => .error e
      | .ok bs => .ok (b :: bs)

/-- Modelled from the spec: per-tree validation and compaction (§4.1):
(1) a root must be designated; (2)–(3) breadth-first traversal from the root
with dangling/duplicate detection; (4) every node must have been visited;
(5)–(6) no visited node may still be Empty, and the dense array is emitted
with remapped child and parent indices. -/
def validateCompact (t : TreeDraft) : Except CommitErr CTree :=
  match t.root with
  | none => .error .missingRoot
  | some r =>
    match bfsDraft t.nodes (t.nodes.length + 1) [(r, none)] [] with
    | .error e => .error e
    | .ok vis =>
      if ∀ e ∈ t.nodes, e.1 ∈ vis.map Prod.fst then
        match exMapM (emitNode t.nodes (vis.map Prod.fst)) vis with
        | .error e => .error e
        | .ok cns => .ok ⟨cns⟩
      else .error .unreachableNode

/-- Modelled from the spec: `ModelBuilder::CommitModel` (`frontend.h`):
validate every draft and, only if all pass, produce the committed ensemble;
all-or-nothing, and non-destructive to the builder's own drafts (§4.1).  The
returned builder component is the builder state after the call. -/
def CommitModel (b : ModelBuilder) : Except CommitErr Model × ModelBuilder :=
  (match exMapM validateCompact b.trees with
   | .ok ts => .ok ⟨ts⟩
   | .error e => .error e, b)

/-- Boolean success test for `Except` results. -/
def isOkE : Except CommitErr α → Bool
  | .ok _ => true
  | .error _ => false

/-- `PrintOp` from `src/cli_main.cc`: the printed text of each comparison
operator.  The C++ `switch` carries a `default: return ""` arm; with the
five-valued `Operator` enumeration of `base.h` that arm is unreachable, so
the five enumerated cases translate it completely. -/
def PrintOp : Operator → String
  | .kEQ => "=="
  | .kLT => "<"
  | .kLE => "<="
  | .kGT => ">"
  | .kGE => ">="

/-- One line printed by the CLI loop of `CLIRunTask` (`src/cli_main.cc`,
lines 95–108): either a leaf line (index, leaf value, parent — the parent
field is printed unconditionally for leaves) or a test line (index, split
feature, threshold, operator text, left/right child index, default-missing
direction, and the parent only when the node is not the root, modelled as an
`Option` that is `none` when the root check suppressed the field). -/
inductive Line
  | leafLine (nid : Nat) (leaf_value : TlFloat) (parent : Option Nat)
  | testLine (nid : Nat) (split_index : Nat) (threshold : TlFloat) (op : String)
      (cleft : Nat) (cright : Nat) (cdefault : Bool) (parent : Option Nat)
deriving DecidableEq

/-- The node index a printed line reports. -/
def Line.nid : Line → Nat
  | .leafLine n _ _ => n
  | .testLine n _ _ _ _ _ _ _ => n

/-- Whether a printed line is a leaf line. -/
def Line.isLeafLine : Line → Bool
  | .leafLine _ _ _ => true
  | .testLine _ _ _ _ _ _ _ _ => false

/-- The parent field of a test line as printed by `CLIRunTask`: suppressed
(`none`) when the node is the root, the node's parent index otherwise. -/
def shownParent (n : CNode) : Option Nat := if n.is_root then none else n.parent

/-- The per-tree printing loop of `CLIRunTask` (`src/cli_main.cc`, lines
90–112), translated from the source: a queue seeded with index 0; each
iteration pops an index, reads the node (`tree[nid]` is an unchecked array
read in C++, modelled as failure on an out-of-range index), emits a leaf
line and increments the leaf counter for a leaf, and otherwise emits a test
line and pushes the left child then the right child.  The C++ `while` loop
is embedded with a fuel argument; `none` is returned on fuel exhaustion. -/
def cliTreeLoop (t : CTree) : Nat → List Nat → Option (List Line × Nat)
  | _, [] => some ([], 0)
  | 0, _ :: _ => none
  | fuel + 1, nid :: rest =>
    match t.nodes[nid]? with
    | none => none
    | some n =>
      match n with
      | .leaf v p =>
        match cliTreeLoop t fuel rest with
        | none => none
        | some (ls, c) => some (.leafLine nid v p :: ls, c + 1)
      | .test f th op cl cr dl _ =>
        match cliTreeLoop t fuel (rest ++ [cl, cr]) with
        | none => none
        | some (ls, c) =>
          some (.testLine nid f th (PrintOp op) cl cr dl (shownParent n) :: ls, c)

/-- The breadth-first visit order the spec describes for the CLI printer
(§6): starting from index 0, a non-leaf node's two children are enqueued
when the node is visited, left before right. -/
def cliVisitOrder (t : CTree) : Nat → List Nat → Option (List Nat)
  | _, [] => some []
  | 0, _ :: _ => none
  | fuel + 1, nid :: rest =>
    match t.nodes[nid]? with
    | none => none
    | some (.leaf _ _) =>
      match cliVisitOrder t fuel rest with
      | none => none
      | some ms => some (nid :: ms)
    | some (.test _ _ _ cl cr _ _) =>
      match cliVisitOrder t fuel (rest ++ [cl, cr]) with
      | none => none
      | some ms => some (nid :: ms)

/-- The line `CLIRunTask` prints for one visited node, as a function of the
index and the inspected node (the specification side of the printing loop). -/
def renderLine (nid : Nat) (n : CNode) : Line :=
  match n with
  | .leaf v p => .leafLine nid v p
  | .test f th op cl cr dl _ => .testLine nid f th (PrintOp op) cl cr dl (shownParent n)

/-- All child keys declared anywhere in a draft. -/
def childPairs (t : TreeDraft) : List Int :=
  t.nodes.flatMap (fun e => draftChildren e.2)

/-- The child edge of a draft: the node stored under `a` is a Test node
declaring `c` as one of its children. -/
def draftEdge (t : TreeDraft) (a c : Int) : Prop :=
  ∃ nd, findNode t.nodes a = some nd ∧ c ∈ draftChildren nd

/-- Reachability from the designated root by following Test children. -/
inductive ReachDraft (t : TreeDraft) : Int → Prop
  | root (r : Int) : t.root = some r → ReachDraft t r
  | child (a c : Int) : ReachDraft t a → draftEdge t a c → ReachDraft t c

/-- The structural-validity conditions claim C1 lists for a draft: exactly
one designated root (the draft holds at most one designation, so the root
being designated and existing), every node reachable from it, no node still
Empty, no cycles, and no key appearing as a child of two parents. -/
structure ListedValid (t : TreeDraft) : Prop where
  root_designated : ∃ r, t.root = some r ∧ r ∈ treeKeys t
  all_reachable : ∀ k ∈ treeKeys t, ReachDraft t k
  no_empty : ∀ e ∈ t.nodes, e.2 ≠ DraftNode.empty
  acyclic : ∀ k, ¬ Relation.TransGen (draftEdge t) k k
  no_shared_child : ∀ e1 ∈ t.nodes, ∀ e2 ∈ t.nodes, e1.1 ≠ e2.1 →
    ∀ c ∈ draftChildren e1.2, c ∉ draftChildren e2.2

/-- Structural validity of a draft at commit time (§3): the conditions of
`ListedValid` together with closure of the declared child keys (every key a
Test node declares as a child exists in the draft, §3's "every key reachable
by following Test children from the root exists in `nodes`"). -/
structure StructurallyValid (t : TreeDraft) : Prop where
  listed : ListedValid t
  children_exist : ∀ c ∈ childPairs t, c ∈ treeKeys t

/-- The construction calls claim C1 quantifies over. -/
inductive BuilderOp
  | createTree (index : Int)
  | createNode (tree_index node_key : Int)
  | setRootNode (tree_index node_key : Int)
  | setTestNode (tree_index node_key : Int) (feature_id : Nat) (op : Operator)
      (threshold : TlFloat) (default_left : Bool) (left_child_key right_child_key : Int)
  | setLeafNode (tree_index node_key : Int) (leaf_value : TlFloat)
deriving DecidableEq

/-- The builder-state effect of one construction call (a failed call leaves
the builder unchanged, so its success flag is dropped here). -/
def applyOp (b : ModelBuilder) : BuilderOp → ModelBuilder
  | .createTree i => (CreateTree b i).2
  | .createNode ti k => (CreateNode b ti k).2
  | .setRootNode ti k => (SetRootNode b ti k).2
  | .setTestNode ti k f op th dl l r => (SetTestNode b ti k f op th dl l r).2
  | .setLeafNode ti k v => (SetLeafNode b ti k v).2

/-- The builder state after a sequence of construction calls on a fresh
builder constructed with the given feature-count bound. -/
def runOps (num_features : Nat) (ops : List BuilderOp) : ModelBuilder :=
  ops.foldl applyOp ⟨num_features, []⟩

/-- The child indices a committed node links to: both children of a test
node, nothing for a leaf. -/
def ctChildren : CNode → List Nat
  | .test _ _ _ cl cr _ _ => [cl, cr]
  | .leaf _ _ => []

/-- All child-index occurrences of a committed tree, in node order. -/
def childOcc (t : CTree) : List Nat := t.nodes.flatMap ctChildren

/-- The child edge of a committed tree: the node stored at index `a` links
to index `b` as one of its children. -/
def ctreeEdge (t : CTree) (a b : Nat) : Prop :=
  ∃ n, t.nodes[a]? = some n ∧ b ∈ ctChildren n

/-- Reachability from index 0 along committed child links. -/
inductive ReachCT (t : CTree) : Nat → Prop
  | zero : ReachCT t 0
  | step (a b : Nat) : ReachCT t a → ctreeEdge t a b → ReachCT t b

/-- The committed-tree shape claim C10 assumes: a finite (nonempty, since
index 0 is read first) node array, every non-leaf node's two child indices
valid, every node except index 0 the child of exactly one node (counting
child slots), and no cycles along child links. -/
structure CTreeShape (t : CTree) : Prop where
  nonempty : 0 < t.nodes.length
  children_valid : ∀ c ∈ childOcc t, c < t.nodes.length
  unique_parent : ∀ j < t.nodes.length, j ≠ 0 → (childOcc t).count j = 1
  acyclic : ∀ j, ¬ Relation.TransGen (ctreeEdge t) j j

/-- Whether a committed node carries the same payload as the draft node it
was compacted from: same state, and the same leaf value, or the same split
feature, operator, threshold and default direction (the child links are
index-remapped by compaction and are not compared here). -/
def nodeMatches : DraftNode → CNode → Bool
  | .leaf v, .leaf v' _ => v' = v
  | .test f op th dl _ _, .test f' th' op' _ _ dl' _ =>
      f' = f ∧ th' = th ∧ op' = op ∧ dl' = dl
  | _, _ => false

/-- The representation invariant every draft reachable through the builder
API satisfies: node keys are unique within the tree (`CreateNode` refuses
duplicates), a designated root exists among the nodes (`SetRootNode`
requires an existing key), and every Test node has two distinct child keys
(`SetTestNode` refuses `left_child_key == right_child_key`). -/
def GoodTree (t : TreeDraft) : Prop :=
  (treeKeys t).Nodup ∧
  (∀ r, t.root = some r → r ∈ treeKeys t) ∧
  (∀ e ∈ t.nodes, ∀ f op th dl lc rc, e.2 = DraftNode.test f op th dl lc rc → lc ≠ rc)

/-! ## Helper lemmas about the key-addressed node collection -/

theorem findNode_mem {l : List (Int × DraftNode)} {k : Int} {nd : DraftNode}
    (h : findNode l k = some nd) : (k, nd) ∈ l := by
  induction l with
  | nil => simp [findNode] at h
  | cons a rest ih =>
    obtain ⟨k', nd'⟩ := a
    by_cases hk : k' = k
    · subst hk
      simp [findNode] at h
      simp [h]
    · simp [findNode, hk] at h
      exact List.mem_cons_of_mem _ (ih h)

theorem findNode_eq_of_mem {l : List (Int × DraftNode)} {k : Int} {nd : DraftNode}
    (hnd : (l.map Prod.fst).Nodup) (h : (k, nd) ∈ l) : findNode l k = some nd := by
  induction l with
  | nil => simp at h
  | cons a rest ih =>
    obtain ⟨k', nd'⟩ := a
    simp only [List.map_cons, List.nodup_cons] at hnd
    rcases List.mem_cons.1 h with h1 | h1
    · obtain ⟨h2, h3⟩ := Prod.mk.injEq .. ▸ h1
      simp [findNode, h2.symm, h3]
    · have hk : k' ≠ k := by
        intro he
        exact hnd.1 (he ▸ (List.mem_map.2 ⟨(k, nd), h1, rfl⟩))
      simp [findNode, hk, ih hnd.2 h1]

theorem findNode_exists_of_mem_keys {l : List (Int × DraftNode)} {k : Int}
    (h : k ∈ l.map Prod.fst) : ∃ nd, findNode l k = some nd := by
  induction l with
  | nil => simp at h
  | cons a rest ih =>
    obtain ⟨k', nd'⟩ := a
    by_cases hk : k' = k
    · exact ⟨nd', by simp [findNode, hk]⟩
    · simp only [List.map_cons, List.mem_cons] at h
      rcases h with h | h
      · exact absurd h.symm hk
      · obtain ⟨nd, hnd⟩ := ih h
        exact ⟨nd, by simp [findNode, hk, hnd]⟩

theorem findNode_none_of_not_mem_keys {l : List (Int × DraftNode)} {k : Int}
    (h : k ∉ l.map Prod.fst) : findNode l k = none := by
  induction l with
  | nil => simp [findNode]
  | cons a rest ih =>
    obtain ⟨k', nd'⟩ := a
    simp only [List.map_cons, List.mem_cons] at h
    push_neg at h
    have hk : ¬ k' = k := fun he => h.1 he.symm
    simp [findNode, hk, ih h.2]

theorem setNode_map_fst (l : List (Int × DraftNode)) (k : Int) (v : DraftNode) :
    (setNode l k v).map Prod.fst = l.map Prod.fst := by
  induction l with
  | nil => simp [setNode]
  | cons a rest ih =>
    obtain ⟨k', nd'⟩ := a
    by_cases hk : k' = k <;> simp [setNode, hk, ih]

theorem findNode_setNode_self {l : List (Int × DraftNode)} {k : Int} (v : DraftNode)
    (h : k ∈ l.map Prod.fst) : findNode (setNode l k v) k = some v := by
  induction l with
  | nil => simp at h
  | cons a rest ih =>
    obtain ⟨k', nd'⟩ := a
    by_cases hk : k' = k
    · simp [setNode, hk, findNode]
    · simp only [List.map_cons, List.mem_cons] at h
      rcases h with h | h
      · exact absurd h.symm hk
      · simp [setNode, hk, findNode, ih h]

theorem mem_setNode {l : List (Int × DraftNode)} {k : Int} {v : DraftNode}
    {e : Int × DraftNode} (h : e ∈ setNode l k v) : e ∈ l ∨ e = (k, v) := by
  induction l with
  | nil => simp [setNode] at h
  | cons a rest ih =>
    obtain ⟨k', nd'⟩ := a
    by_cases hk : k' = k
    · simp only [setNode, hk, if_pos rfl] at h
      rcases List.mem_cons.1 h with h | h
      · exact Or.inr (by simpa [hk] using h)
      · exact Or.inl (List.mem_cons_of_mem _ h)
    · simp only [setNode, if_neg hk] at h
      rcases List.mem_cons.1 h with h | h
      · exact Or.inl (h ▸ List.mem_cons_self _ _)
      · rcases ih h with h | h
        · exact Or.inl (List.mem_cons_of_mem _ h)
        · exact Or.inr h

/-! ## Helper lemmas about `exMapM` -/

theorem exMapM_ok_forall₂ {f : α → Except CommitErr β} :
    ∀ {l : List α} {ys : List β}, exMapM f l = .ok ys →
      List.Forall₂ (fun a b => f a = .ok b) l ys := by
  intro l
  induction l with
  | nil => intro ys h; simp only [exMapM] at h; cases h; exact List.Forall₂.nil
  | cons a rest ih =>
    intro ys h
    simp only [exMapM] at h
    cases hfa : f a with
    | error e => rw [hfa] at h; cases h
    | ok b =>
      rw [hfa] at h
      cases hrest : exMapM f rest with
      | error e => rw [hrest] at h; cases h
      | ok bs =>
        rw [hrest] at h
        cases h
        exact List.Forall₂.cons hfa (ih hrest)

theorem exMapM_ok_of_forall {f : α → Except CommitErr β} :
    ∀ {l : List α}, (∀ a ∈ l, ∃ b, f a = .ok b) →
      ∃ ys, exMapM f l = .ok ys := by
  intro l
  induction l with
  | nil => intro _; exact ⟨[], rfl⟩
  | cons a rest ih =>
    intro h
    obtain ⟨b, hb⟩ := h a (List.mem_cons_self _ _)
    obtain ⟨bs, hbs⟩ := ih (fun x hx => h x (List.mem_cons_of_mem _ hx))
    exact ⟨b :: bs, by simp [exMapM, hb, hbs]⟩

theorem exMapM_ok_mem {f : α → Except CommitErr β} :
    ∀ {l : List α} {ys : List β}, exMapM f l = .ok ys →
      ∀ a ∈ l, ∃ b, f a = .ok b := by
  intro l
  induction l with
  | nil => intro ys _ a ha; simp at ha
  | cons x rest ih =>
    intro ys h a ha
    simp only [exMapM] at h
    cases hfx : f x with
    | error e => rw [hfx] at h; cases h
    | ok b =>
      rw [hfx] at h
      cases hrest : exMapM f rest with
      | error e => rw [hrest] at h; cases h
      | ok bs =>
        rcases List.mem_cons.1 ha with rfl | ha
        · exact ⟨b, hfx⟩
        · exact ih hrest a ha

/-! ## Generic helper lemmas -/

theorem transGen_irrefl_of_levels {α : Type} {r : α → α → Prop} (f : α → Nat)
    (h : ∀ a b, r a b → f a < f b) (a : α) : ¬ Relation.TransGen r a a := by
  intro htg
  have key : ∀ {x y : α}, Relation.TransGen r x y → f x < f y := by
    intro x y hxy
    induction hxy with
    | single h1 => exact h _ _ h1
    | tail _ h1 ih => exact ih.trans (h _ _ h1)
  exact lt_irrefl _ (key htg)

theorem length_filter_lt_of_stronger {α : Type} (l : List α) (p q : α → Bool)
    (hpq : ∀ x, q x = true → p x = true) (k : α) (hk : k ∈ l)
    (hpk : p k = true) (hqk : q k = false) :
    (l.filter q).length < (l.filter p).length := by
  have heq : l.filter q = (l.filter p).filter q := by
    rw [List.filter_filter]
    apply List.filter_congr
    intro x _
    cases hqx : q x
    · simp
    · simp [hpq x hqx]
  rw [heq]
  apply List.length_filter_lt_length_iff_exists.2
  exact ⟨k, List.mem_filter.2 ⟨hk, hpk⟩, by simp [hqk]⟩

theorem findIdx_exists_of_mem {l : List Int} {c : Int} (h : c ∈ l) :
    ∃ i, l.findIdx? (fun x => x = c) = some i := by
  cases hf : l.findIdx? (fun x => x = c) with
  | some i => exact ⟨i, rfl⟩
  | none =>
    have := List.findIdx?_eq_none_iff.1 hf c h
    simp at this

/-! ## The builder-API representation invariant -/

theorem goodTree_empty : GoodTree emptyTreeDraft := by
  refine ⟨by simp [treeKeys, emptyTreeDraft], ?_, ?_⟩
  · intro r hr; simp [emptyTreeDraft] at hr
  · intro e he; simp [emptyTreeDraft] at he

theorem getTree_mem {b : ModelBuilder} {ti : Int} {t : TreeDraft}
    (h : getTree b ti = some t) : t ∈ b.trees := by
  unfold getTree at h
  split at h
  · exact List.getElem?_mem h
  · cases h

theorem putTree_good {b : ModelBuilder} {ti : Int} {t0 : TreeDraft}
    (hb : ∀ t ∈ b.trees, GoodTree t) (h0 : GoodTree t0) :
    ∀ t ∈ (putTree b ti t0).trees, GoodTree t := by
  intro t ht
  rcases List.mem_or_eq_of_mem_set ht with h | h
  · exact hb t h
  · exact h ▸ h0

theorem goodTree_setTest {t : TreeDraft} {k : Int} {f : Nat} {op : Operator}
    {th : TlFloat} {dl : Bool} {lc rc : Int}
    (hg : GoodTree t) (hlr : lc ≠ rc) :
    GoodTree ⟨setNode t.nodes k (.test f op th dl lc rc), t.root⟩ := by
  obtain ⟨hN, hR, hT⟩ := hg
  refine ⟨?_, ?_, ?_⟩
  · show ((setNode t.nodes k _).map Prod.fst).Nodup
    rw [setNode_map_fst]
    exact hN
  · intro r hr
    show r ∈ (setNode t.nodes k _).map Prod.fst
    rw [setNode_map_fst]
    exact hR r hr
  · intro e he f' op' th' dl' lc' rc' het
    rcases mem_setNode he with h | h
    · exact hT e h f' op' th' dl' lc' rc' het
    · rw [h] at het
      cases het
      exact hlr

theorem goodTree_setLeaf {t : TreeDraft} {k : Int} {v : TlFloat}
    (hg : GoodTree t) : GoodTree ⟨setNode t.nodes k (.leaf v), t.root⟩ := by
  obtain ⟨hN, hR, hT⟩ := hg
  refine ⟨?_, ?_, ?_⟩
  · show ((setNode t.nodes k _).map Prod.fst).Nodup
    rw [setNode_map_fst]
    exact hN
  · intro r hr
    show r ∈ (setNode t.nodes k _).map Prod.fst
    rw [setNode_map_fst]
    exact hR r hr
  · intro e he f' op' th' dl' lc' rc' het
    rcases mem_setNode he with h | h
    · exact hT e h f' op' th' dl' lc' rc' het
    · rw [h] at het
      cases het

theorem applyOp_good {b : ModelBuilder} (hb : ∀ t ∈ b.trees, GoodTree t)
    (op : BuilderOp) : ∀ t ∈ (applyOp b op).trees, GoodTree t := by
  intro t' ht'
  cases op with
  | createTree i =>
    simp only [applyOp, CreateTree] at ht'
    split at ht'
    · simp only [List.mem_append, List.mem_cons] at ht'
      rcases ht' with h | h | h
      · exact hb t' (List.take_subset _ _ h)
      · exact h ▸ goodTree_empty
      · exact hb t' (List.drop_subset _ _ h)
    · exact hb t' ht'
  | createNode ti k =>
    cases hgt : getTree b ti with
    | none =>
      simp only [applyOp, CreateNode, hgt] at ht'
      exact hb t' ht'
    | some t =>
      simp only [applyOp, CreateNode, hgt] at ht'
      obtain ⟨hN, hR, hT⟩ := hb t (getTree_mem hgt)
      by_cases hk : k ∈ treeKeys t
      · rw [if_pos hk] at ht'
        exact hb t' ht'
      · rw [if_neg hk] at ht'
        refine putTree_good hb ⟨?_, ?_, ?_⟩ t' ht'
        · show ((t.nodes ++ [(k, DraftNode.empty)]).map Prod.fst).Nodup
          rw [List.map_append]
          refine List.Nodup.append hN (by simp) ?_
          intro a ha hamem
          simp at hamem
          exact hk (hamem ▸ ha)
        · intro r hr
          show r ∈ (t.nodes ++ [(k, DraftNode.empty)]).map Prod.fst
          rw [List.map_append]
          exact List.mem_append_left _ (hR r hr)
        · intro e he f' op' th' dl' lc rc het
          rcases List.mem_append.1 he with h | h
          · exact hT e h f' op' th' dl' lc rc het
          · simp at h
            rw [h] at het
            simp at het
  | setRootNode ti k =>
    cases hgt : getTree b ti with
    | none =>
      simp only [applyOp, SetRootNode, hgt] at ht'
      exact hb t' ht'
    | some t =>
      simp only [applyOp, SetRootNode, hgt] at ht'
      obtain ⟨hN, hR, hT⟩ := hb t (getTree_mem hgt)
      by_cases hk : k ∈ treeKeys t
      · rw [if_pos hk] at ht'
        refine putTree_good hb ?_ t' ht'
        exact ⟨hN, fun r hr => by cases hr; exact hk, hT⟩
      · rw [if_neg hk] at ht'
        exact hb t' ht'
  | setTestNode ti k f op th dl lc rc =>
    cases hgt : getTree b ti with
    | none =>
      simp only [applyOp, SetTestNode, hgt] at ht'
      exact hb t' ht'
    | some t =>
      obtain ⟨hN, hR, hT⟩ := hb t (getTree_mem hgt)
      cases hfn : findNode t.nodes k with
      | none =>
        simp only [applyOp, SetTestNode, hgt, hfn] at ht'
        exact hb t' ht'
      | some nd =>
        cases nd with
        | empty =>
          simp only [applyOp, SetTestNode, hgt, hfn] at ht'
          by_cases hcond : f < b.num_features ∧ lc ≠ rc
          · rw [if_pos hcond] at ht'
            exact putTree_good hb (goodTree_setTest ⟨hN, hR, hT⟩ hcond.2) t' ht'
          · rw [if_neg hcond] at ht'
            exact hb t' ht'
        | test f' op' th' dl' lc' rc' =>
          simp only [applyOp, SetTestNode, hgt, hfn] at ht'
          exact hb t' ht'
        | leaf v =>
          simp only [applyOp, SetTestNode, hgt, hfn] at ht'
          exact hb t' ht'
  | setLeafNode ti k v =>
    cases hgt : getTree b ti with
    | none =>
      simp only [applyOp, SetLeafNode, hgt] at ht'
      exact hb t' ht'
    | some t =>
      obtain ⟨hN, hR, hT⟩ := hb t (getTree_mem hgt)
      cases hfn : findNode t.nodes k with
      | none =>
        simp only [applyOp, SetLeafNode, hgt, hfn] at ht'
        exact hb t' ht'
      | some nd =>
        cases nd with
        | empty =>
          simp only [applyOp, SetLeafNode, hgt, hfn] at ht'
          exact putTree_good hb (goodTree_setLeaf ⟨hN, hR, hT⟩) t' ht'
        | test f' op' th' dl' lc' rc' =>
          simp only [applyOp, SetLeafNode, hgt, hfn] at ht'
          exact hb t' ht'
        | leaf v' =>
          simp only [applyOp, SetLeafNode, hgt, hfn] at ht'
          exact hb t' ht'

theorem runOps_good (nf : Nat) (ops : List BuilderOp) :
    ∀ t ∈ (runOps nf ops).trees, GoodTree t := by
  suffices h : ∀ (ops : List BuilderOp) (b : ModelBuilder),
      (∀ t ∈ b.trees, GoodTree t) → ∀ t ∈ (ops.foldl applyOp b).trees, GoodTree t by
    exact h ops ⟨nf, []⟩ (by intro t ht; simp at ht)
  intro ops
  induction ops with
  | nil => intro b hb; exact hb
  | cons op rest ih =>
    intro b hb
    exact ih (applyOp b op) (applyOp_good hb op)

/-! ## Reachability facts about drafts -/

theorem reachDraft_transGen {t : TreeDraft} {r k : Int} (hroot : t.root = some r)
    (h : ReachDraft t k) : k = r ∨ Relation.TransGen (draftEdge t) r k := by
  induction h with
  | root r' hr' =>
    left
    rw [hroot] at hr'
    exact (Option.some.injEq .. ▸ hr').symm
  | child a c _ hedge ih =>
    rcases ih with rfl | htg
    · exact Or.inr (Relation.TransGen.single hedge)
    · exact Or.inr (htg.tail hedge)

theorem root_not_child {t : TreeDraft} {r : Int} (hroot : t.root = some r)
    (hN : (treeKeys t).Nodup)
    (hreach : ∀ k ∈ treeKeys t, ReachDraft t k)
    (hacy : ∀ k, ¬ Relation.TransGen (draftEdge t) k k) :
    ∀ e ∈ t.nodes, r ∉ draftChildren e.2 := by
  intro e he hr
  have hmem : (e.1, e.2) ∈ t.nodes := by simpa using he
  have hedge : draftEdge t e.1 r := ⟨e.2, findNode_eq_of_mem hN hmem, hr⟩
  have hre : ReachDraft t e.1 := hreach e.1 (List.mem_map.2 ⟨e, he, rfl⟩)
  rcases reachDraft_transGen hroot hre with he1 | htg
  · exact hacy r (Relation.TransGen.single (he1 ▸ hedge))
  · exact hacy r (htg.tail hedge)

/-! ## Soundness of the commit traversal on structurally valid drafts -/

theorem map_fst_pair_comp (l : List Int) (i : Option Nat) :
    l.map (Prod.fst ∘ fun c => (c, i)) = l := by
  induction l with
  | nil => rfl
  | cons a l ih =>
    simp only [List.map_cons]
    rw [ih]
    rfl

theorem map_fst_pairs (l : List Int) (i : Option Nat) :
    (l.map (fun c => (c, i))).map Prod.fst = l := by
  rw [List.map_map]
  exact map_fst_pair_comp l i

theorem bfsDraft_sound (t : TreeDraft) (r : Int)
    (hlr : ∀ e ∈ t.nodes, ∀ f op th dl lc rc, e.2 = DraftNode.test f op th dl lc rc → lc ≠ rc)
    (hshar : ∀ e1 ∈ t.nodes, ∀ e2 ∈ t.nodes, e1.1 ≠ e2.1 →
      ∀ c ∈ draftChildren e1.2, c ∉ draftChildren e2.2)
    (hclose : ∀ c ∈ childPairs t, c ∈ treeKeys t)
    (hrnc : ∀ e ∈ t.nodes, r ∉ draftChildren e.2) :
    ∀ (fuel : Nat) (Q visited : List (Int × Option Nat)),
    ((visited ++ Q).map Prod.fst).Nodup →
    (∀ x ∈ (visited ++ Q).map Prod.fst, x ∈ treeKeys t) →
    (∀ x ∈ (visited ++ Q).map Prod.fst, x = r ∨ ∃ a ∈ visited.map Prod.fst,
       ∃ nd, findNode t.nodes a = some nd ∧ x ∈ draftChildren nd) →
    (∀ x ∈ visited.map Prod.fst, ∀ nd, findNode t.nodes x = some nd →
       ∀ c ∈ draftChildren nd, c ∈ (visited ++ Q).map Prod.fst) →
    ((treeKeys t).filter (fun y => y ∉ visited.map Prod.fst)).length ≤ fuel →
    ∃ vis, bfsDraft t.nodes fuel Q visited = .ok vis ∧
      (∃ s, vis = visited.reverse ++ s) ∧
      (vis.map Prod.fst).Nodup ∧
      (∀ x ∈ vis.map Prod.fst, x ∈ treeKeys t) ∧
      (∀ x ∈ (visited ++ Q).map Prod.fst, x ∈ vis.map Prod.fst) ∧
      (∀ x ∈ vis.map Prod.fst, ∀ nd, findNode t.nodes x = some nd →
        ∀ c ∈ draftChildren nd, c ∈ vis.map Prod.fst) := by
  have base : ∀ (fuel : Nat) (visited : List (Int × Option Nat)),
      ((visited ++ []).map Prod.fst).Nodup →
      (∀ x ∈ (visited ++ []).map Prod.fst, x ∈ treeKeys t) →
      (∀ x ∈ visited.map Prod.fst, ∀ nd, findNode t.nodes x = some nd →
        ∀ c ∈ draftChildren nd, c ∈ (visited ++ []).map Prod.fst) →
      ∃ vis, bfsDraft t.nodes fuel [] visited = .ok vis ∧
        (∃ s, vis = visited.reverse ++ s) ∧
        (vis.map Prod.fst).Nodup ∧
        (∀ x ∈ vis.map Prod.fst, x ∈ treeKeys t) ∧
        (∀ x ∈ (visited ++ []).map Prod.fst, x ∈ vis.map Prod.fst) ∧
        (∀ x ∈ vis.map Prod.fst, ∀ nd, findNode t.nodes x = some nd →
          ∀ c ∈ draftChildren nd, c ∈ vis.map Prod.fst) := by
    intro fuel visited hnd hin hcl
    have hnil : (visited ++ []).map Prod.fst = visited.map Prod.fst := by simp
    rw [hnil] at hnd hin hcl
    have hrev : visited.reverse.map Prod.fst = (visited.map Prod.fst).reverse :=
      List.map_reverse _ _
    refine ⟨visited.reverse, by simp [bfsDraft], ⟨[], by simp⟩, ?_, ?_, ?_, ?_⟩
    · rw [hrev]
      exact List.nodup_reverse.2 hnd
    · intro x hx
      rw [hrev] at hx
      exact hin x (List.mem_reverse.1 hx)
    · intro x hx
      rw [hnil] at hx
      rw [hrev]
      exact List.mem_reverse.2 hx
    · intro x hx nd hnd' c hc
      rw [hrev] at hx ⊢
      exact List.mem_reverse.2 (hcl x (List.mem_reverse.1 hx) nd hnd' c hc)
  intro fuel
  induction fuel with
  | zero =>
    intro Q visited hnd hin hprov hcl hfuel
    cases Q with
    | nil => exact base 0 visited hnd hin hcl
    | cons hd tl =>
      exfalso
      have hsplit : (visited ++ hd :: tl).map Prod.fst
          = visited.map Prod.fst ++ hd.1 :: tl.map Prod.fst := by simp
      rw [hsplit] at hnd hin
      have hK : hd.1 ∈ treeKeys t := hin hd.1 (by simp)
      have hnv : hd.1 ∉ visited.map Prod.fst := fun hcon =>
        (List.disjoint_of_nodup_append hnd) hcon (by simp)
      have h1 : hd.1 ∈ (treeKeys t).filter (fun y => y ∉ visited.map Prod.fst) :=
        List.mem_filter.2 ⟨hK, by simpa using hnv⟩
      have := List.length_pos_of_mem h1
      omega
  | succ f ih =>
    intro Q visited hnd hin hprov hcl hfuel
    cases Q with
    | nil => exact base (f + 1) visited hnd hin hcl
    | cons hd tl =>
      obtain ⟨k, p⟩ := hd
      have hsplit : (visited ++ (k, p) :: tl).map Prod.fst
          = visited.map Prod.fst ++ k :: tl.map Prod.fst := by simp
      rw [hsplit] at hnd hin hprov hcl
      have hknotv : k ∉ visited.map Prod.fst := fun hcon =>
        (List.disjoint_of_nodup_append hnd) hcon (by simp)
      have hkK : k ∈ treeKeys t := hin k (by simp)
      obtain ⟨nd, hnd_eq⟩ := findNode_exists_of_mem_keys hkK
      have hkmem : (k, nd) ∈ t.nodes := findNode_mem hnd_eq
      -- the children of the freshly visited node are fresh
      have hfresh : ∀ c ∈ draftChildren nd,
          c ∉ visited.map Prod.fst ++ k :: tl.map Prod.fst := by
        intro c hc hcmem
        rcases hprov c hcmem with rfl | ⟨a, haV, nda, hfa, hca⟩
        · exact hrnc (k, nd) hkmem hc
        · have hak : a ≠ k := fun he => hknotv (he ▸ haV)
          exact hshar (a, nda) (findNode_mem hfa) (k, nd) hkmem hak c hca hc
      have hchnd : (draftChildren nd).Nodup := by
        cases nd with
        | empty => simp [draftChildren]
        | leaf v => simp [draftChildren]
        | test f0 op0 th0 dl0 lc rc =>
          have := hlr (k, .test f0 op0 th0 dl0 lc rc) hkmem f0 op0 th0 dl0 lc rc rfl
          simp [draftChildren, this]
      have hchK : ∀ c ∈ draftChildren nd, c ∈ treeKeys t := by
        intro c hc
        exact hclose c (List.mem_flatMap.2 ⟨(k, nd), hkmem, hc⟩)
      -- one evaluation step of the traversal
      have hstep : bfsDraft t.nodes (f + 1) ((k, p) :: tl) visited
          = bfsDraft t.nodes f
              (tl ++ (draftChildren nd).map (fun c => (c, some visited.length)))
              ((k, p) :: visited) := by
        simp only [bfsDraft, hnd_eq]
        rw [if_neg hknotv]
      -- keys of the new state, in normalized form
      have hmapnew : (((k, p) :: visited) ++
          (tl ++ (draftChildren nd).map (fun c => (c, some visited.length)))).map Prod.fst
          = k :: (visited.map Prod.fst ++ (tl.map Prod.fst ++ draftChildren nd)) := by
        simp [map_fst_pairs, map_fst_pair_comp]
      have hmapvis : ((k, p) :: visited).map Prod.fst = k :: visited.map Prod.fst := by simp
      -- invariants for the recursive call
      have hnd' : ((((k, p) :: visited) ++
          (tl ++ (draftChildren nd).map (fun c => (c, some visited.length)))).map
            Prod.fst).Nodup := by
        rw [hmapnew]
        have hold : (k :: (visited.map Prod.fst ++ tl.map Prod.fst)).Nodup :=
          List.perm_middle.nodup hnd
        have hdisj : List.Disjoint (k :: (visited.map Prod.fst ++ tl.map Prod.fst))
            (draftChildren nd) := by
          intro a ha hamem
          exact hfresh a hamem (List.perm_middle.mem_iff.2 ha)
        have hX : ((k :: (visited.map Prod.fst ++ tl.map Prod.fst)) ++
            draftChildren nd).Nodup := List.Nodup.append hold hchnd hdisj
        simpa [List.append_assoc] using hX
      have hin' : ∀ x ∈ (((k, p) :: visited) ++
          (tl ++ (draftChildren nd).map (fun c => (c, some visited.length)))).map Prod.fst,
          x ∈ treeKeys t := by
        intro x hx
        rw [hmapnew] at hx
        simp only [List.mem_cons, List.mem_append] at hx
        rcases hx with rfl | hx | hx | hx
        · exact hkK
        · exact hin x (by simp [hx])
        · exact hin x (by simp [hx])
        · exact hchK x hx
      have hprov' : ∀ x ∈ (((k, p) :: visited) ++
          (tl ++ (draftChildren nd).map (fun c => (c, some visited.length)))).map Prod.fst,
          x = r ∨ ∃ a ∈ ((k, p) :: visited).map Prod.fst,
            ∃ nda, findNode t.nodes a = some nda ∧ x ∈ draftChildren nda := by
        intro x hx
        rw [hmapnew] at hx
        simp only [List.mem_cons, List.mem_append] at hx
        have hxold : x = k ∨ x ∈ visited.map Prod.fst ∨ x ∈ tl.map Prod.fst →
            x = r ∨ ∃ a ∈ ((k, p) :: visited).map Prod.fst,
              ∃ nda, findNode t.nodes a = some nda ∧ x ∈ draftChildren nda := by
          intro hxo
          have hxmem : x ∈ visited.map Prod.fst ++ k :: tl.map Prod.fst := by
            simp only [List.mem_append, List.mem_cons]
            tauto
          rcases hprov x hxmem with h | ⟨a, haV, nda, hfa, hca⟩
          · exact Or.inl h
          · exact Or.inr ⟨a, by rw [hmapvis]; exact List.mem_cons_of_mem _ haV,
              nda, hfa, hca⟩
        rcases hx with rfl | hx | hx | hx
        · exact hxold (Or.inl rfl)
        · exact hxold (Or.inr (Or.inl hx))
        · exact hxold (Or.inr (Or.inr hx))
        · exact Or.inr ⟨k, by rw [hmapvis]; exact List.mem_cons_self _ _, nd, hnd_eq, hx⟩
      have hcl' : ∀ x ∈ ((k, p) :: visited).map Prod.fst,
          ∀ nda, findNode t.nodes x = some nda → ∀ c ∈ draftChildren nda,
          c ∈ (((k, p) :: visited) ++
            (tl ++ (draftChildren nd).map (fun c => (c, some visited.length)))).map
              Prod.fst := by
        intro x hx nda hfa c hc
        rw [hmapvis] at hx
        rw [hmapnew]
        simp only [List.mem_cons, List.mem_append]
        rcases List.mem_cons.1 hx with rfl | hx
        · rw [hnd_eq] at hfa
          cases hfa
          exact Or.inr (Or.inr (Or.inr hc))
        · have := hcl x hx nda hfa c hc
          simp only [List.mem_append, List.mem_cons] at this
          tauto
      have hfuel' : ((treeKeys t).filter
          (fun y => y ∉ ((k, p) :: visited).map Prod.fst)).length ≤ f := by
        have hlt : ((treeKeys t).filter
            (fun y => y ∉ ((k, p) :: visited).map Prod.fst)).length <
            ((treeKeys t).filter (fun y => y ∉ visited.map Prod.fst)).length := by
          apply length_filter_lt_of_stronger (treeKeys t) _ _ ?_ k hkK ?_ ?_
          · intro x hx
            rw [hmapvis] at hx
            simp only [List.mem_cons, decide_eq_true_eq] at hx ⊢
            push_neg at hx
            simpa using hx.2
          · simpa using hknotv
          · rw [hmapvis]
            simp
        omega
      obtain ⟨vis, hvis, ⟨s, hs⟩, hvnd, hvK, hvmem, hvcl⟩ := ih _ _ hnd' hin' hprov' hcl' hfuel'
      refine ⟨vis, by rw [hstep]; exact hvis, ⟨(k, p) :: s, ?_⟩, hvnd, hvK, ?_, hvcl⟩
      · rw [hs]
        simp
      · intro x hx
        apply hvmem
        rw [hsplit] at hx
        rw [hmapnew]
        simp only [List.mem_append, List.mem_cons] at hx
        simp only [List.mem_cons, List.mem_append]
        tauto

theorem bfsDraft_prefix (nodes : List (Int × DraftNode)) :
    ∀ (fuel : Nat) (Q visited vis : List (Int × Option Nat)),
    bfsDraft nodes fuel Q visited = .ok vis → ∃ s, vis = visited.reverse ++ s := by
  intro fuel
  induction fuel with
  | zero =>
    intro Q visited vis h
    cases Q with
    | nil =>
      simp only [bfsDraft, Except.ok.injEq] at h
      exact ⟨[], by rw [← h]; simp⟩
    | cons hd tl => simp [bfsDraft] at h
  | succ f ih =>
    intro Q visited vis h
    cases Q with
    | nil =>
      simp only [bfsDraft, Except.ok.injEq] at h
      exact ⟨[], by rw [← h]; simp⟩
    | cons hd tl =>
      obtain ⟨k, p⟩ := hd
      simp only [bfsDraft] at h
      by_cases hk : k ∈ visited.map Prod.fst
      · rw [if_pos hk] at h
        simp at h
      · rw [if_neg hk] at h
        cases hfn : findNode nodes k with
        | none => rw [hfn] at h; simp at h
        | some nd =>
          rw [hfn] at h
          obtain ⟨s, hs⟩ := ih _ _ _ h
          exact ⟨(k, p) :: s, by rw [hs]; simp⟩

theorem validateCompact_ok (t : TreeDraft) (hg : GoodTree t) (hv : StructurallyValid t) :
    ∃ ct, validateCompact t = .ok ct ∧ ct.nodes.length = t.nodes.length := by
  obtain ⟨hN, hRroot, hT⟩ := hg
  obtain ⟨⟨⟨r, hroot, hrK⟩, hreach, hempty, hacy, hshar⟩, hclose⟩ := hv
  have hrnc := root_not_child hroot hN hreach hacy
  have hmaster := bfsDraft_sound t r hT hshar hclose hrnc
    (t.nodes.length + 1) [(r, none)] []
    (by simp)
    (by intro x hx; simp at hx; exact hx ▸ hrK)
    (by intro x hx; simp at hx; exact Or.inl hx)
    (by intro x hx; simp at hx)
    (by
      have hfil : (treeKeys t).filter
          (fun y => y ∉ (([] : List (Int × Option Nat)).map Prod.fst)) = treeKeys t := by
        simp
      rw [hfil]
      have : (treeKeys t).length = t.nodes.length := by simp [treeKeys]
      omega)
  obtain ⟨vis, hvis, _, hvnd, hvK, hvmem, hvcl⟩ := hmaster
  have hrvis : r ∈ vis.map Prod.fst := hvmem r (by simp)
  have hKsub : ∀ x ∈ treeKeys t, x ∈ vis.map Prod.fst := by
    intro x hx
    have hr := hreach x hx
    clear hx
    induction hr with
    | root r' hr' =>
      rw [hroot] at hr'
      cases hr'
      exact hrvis
    | child a c hra hedge ih2 =>
      obtain ⟨nda, hfa, hca⟩ := hedge
      exact hvcl a ih2 nda hfa c hca
  have hperm : (vis.map Prod.fst).Perm (treeKeys t) :=
    (List.Nodup.subperm hvnd fun x hx => hvK x hx).antisymm
      (List.Nodup.subperm hN fun x hx => hKsub x hx)
  have hvislen : vis.length = t.nodes.length := by
    have := hperm.length_eq
    simpa [treeKeys] using this
  have hallcheck : ∀ e ∈ t.nodes, e.1 ∈ vis.map Prod.fst := by
    intro e he
    exact hKsub e.1 (List.mem_map.2 ⟨e, he, rfl⟩)
  have hemit : ∀ en ∈ vis, ∃ cn, emitNode t.nodes (vis.map Prod.fst) en = .ok cn := by
    intro en hen
    obtain ⟨k, p⟩ := en
    have hkv : k ∈ vis.map Prod.fst := List.mem_map.2 ⟨(k, p), hen, rfl⟩
    have hkK2 : k ∈ treeKeys t := hvK k hkv
    obtain ⟨nd, hfn⟩ := findNode_exists_of_mem_keys hkK2
    have hkmem := findNode_mem hfn
    cases nd with
    | empty => exact absurd rfl (hempty (k, .empty) hkmem)
    | leaf v => exact ⟨.leaf v p, by simp [emitNode, hfn]⟩
    | test f0 op0 th0 dl0 lc rc =>
      have hlc : lc ∈ vis.map Prod.fst :=
        hvcl k hkv _ hfn lc (by simp [draftChildren])
      have hrc : rc ∈ vis.map Prod.fst :=
        hvcl k hkv _ hfn rc (by simp [draftChildren])
      obtain ⟨i, hi⟩ := findIdx_exists_of_mem hlc
      obtain ⟨j, hj⟩ := findIdx_exists_of_mem hrc
      exact ⟨.test f0 th0 op0 i j dl0 p, by simp [emitNode, hfn, hi, hj]⟩
  obtain ⟨cns, hcns⟩ := exMapM_ok_of_forall hemit
  have hcnslen : cns.length = vis.length := (exMapM_ok_forall₂ hcns).length_eq.symm
  refine ⟨⟨cns⟩, ?_, by simpa using hcnslen.trans hvislen⟩
  simp only [validateCompact, hroot, hvis]
  rw [if_pos hallcheck, hcns]

/-! ## The committed root sits at index 0 with no parent -/

theorem emitNode_ok_shape {nodes : List (Int × DraftNode)} {order : List Int}
    {k : Int} {p : Option Nat} {cn : CNode}
    (h : emitNode nodes order (k, p) = .ok cn) :
    CNode.parent cn = p ∧ ∃ nd, findNode nodes k = some nd ∧ nodeMatches nd cn = true := by
  simp only [emitNode] at h
  split at h
  · simp at h
  · simp at h
  · rename_i v heq
    simp only [Except.ok.injEq] at h
    subst h
    exact ⟨rfl, ⟨.leaf v, heq, by simp [nodeMatches]⟩⟩
  · rename_i f0 op0 th0 dl0 lc rc heq
    split at h
    · simp only [Except.ok.injEq] at h
      subst h
      exact ⟨rfl, ⟨.test f0 op0 th0 dl0 lc rc, heq, by simp [nodeMatches]⟩⟩
    · simp at h

theorem validateCompact_root {t : TreeDraft} {ct : CTree}
    (h : validateCompact t = .ok ct) :
    ∃ r nd cn, t.root = some r ∧ findNode t.nodes r = some nd ∧
      ct.nodes[0]? = some cn ∧ cn.parent = none ∧ nodeMatches nd cn = true := by
  simp only [validateCompact] at h
  split at h
  · simp at h
  rename_i r hroot
  split at h
  · simp at h
  rename_i vis hb
  split at h
  case isFalse => simp at h
  split at h
  · simp at h
  rename_i cns hex
  simp only [Except.ok.injEq] at h
  -- the first visited entry is the root with no parent
  simp only [bfsDraft] at hb
  rw [if_neg (by simp)] at hb
  split at hb
  · simp at hb
  rename_i nd0 hfn0
  obtain ⟨s, hs⟩ := bfsDraft_prefix t.nodes _ _ _ _ hb
  simp only [List.reverse_cons, List.reverse_nil, List.nil_append,
    List.singleton_append] at hs
  subst hs
  -- the first emitted node
  have hfa := exMapM_ok_forall₂ hex
  cases hfa with
  | cons hhd htl =>
    rename_i cn0 cns'
    obtain ⟨hp, nd, hnd, hm⟩ := emitNode_ok_shape hhd
    refine ⟨r, nd, cn0, hroot, hnd, ?_, hp, hm⟩
    rw [← h]
    simp

/-! ## Commit-level correspondence -/

theorem commitModel_snd (b : ModelBuilder) : (CommitModel b).2 = b := rfl

theorem commit_ok_forall₂ {b : ModelBuilder} {m : Model}
    (h : (CommitModel b).1 = .ok m) :
    List.Forall₂ (fun t ct => validateCompact t = .ok ct) b.trees m.trees := by
  simp only [CommitModel] at h
  cases hex : exMapM validateCompact b.trees with
  | error e => rw [hex] at h; simp at h
  | ok ts =>
    rw [hex] at h
    simp only [Except.ok.injEq] at h
    rw [← h]
    exact exMapM_ok_forall₂ hex

theorem commit_ok_of_all {b : ModelBuilder}
    (h : ∀ t ∈ b.trees, ∃ ct, validateCompact t = .ok ct) :
    ∃ m, (CommitModel b).1 = .ok m := by
  obtain ⟨ts, hts⟩ := exMapM_ok_of_forall h
  exact ⟨⟨ts⟩, by simp [CommitModel, hts]⟩

theorem commit_all_of_ok {b : ModelBuilder} {m : Model}
    (h : (CommitModel b).1 = .ok m) :
    ∀ t ∈ b.trees, ∃ ct, validateCompact t = .ok ct := by
  simp only [CommitModel] at h
  cases hex : exMapM validateCompact b.trees with
  | error e => rw [hex] at h; simp at h
  | ok ts => exact exMapM_ok_mem hex

/-! ## Counting child occurrences in a committed tree -/

theorem count_flatMap_getElem {α β : Type} [DecidableEq β] (f : α → List β)
    (L : List α) (i : Nat) (hi : i < L.length) (c : β) :
    (f L[i]).count c ≤ (L.flatMap f).count c := by
  conv_rhs => rw [← List.take_append_drop i L]
  rw [List.flatMap_append, List.count_append,
    List.drop_eq_getElem_cons hi, List.flatMap_cons, List.count_append]
  omega

theorem count_flatMap_two_aux {α β : Type} [DecidableEq β] (f : α → List β)
    (L : List α) (i j : Nat) (hi : i < L.length) (hj : j < L.length) (hij : i < j)
    (c : β) (hci : c ∈ f L[i]) (hcj : c ∈ f L[j]) :
    2 ≤ (L.flatMap f).count c := by
  conv_rhs => rw [← List.take_append_drop j L]
  rw [List.flatMap_append, List.count_append,
    List.drop_eq_getElem_cons hj, List.flatMap_cons, List.count_append]
  have hitake : i < (L.take j).length := by
    rw [List.length_take]
    omega
  have h1 : 1 ≤ ((L.take j).flatMap f).count c := by
    have h2 : (f (L.take j)[i]).count c ≤ ((L.take j).flatMap f).count c :=
      count_flatMap_getElem f (L.take j) i hitake c
    rw [List.getElem_take] at h2
    have : 0 < (f L[i]).count c := List.count_pos_iff.2 hci
    omega
  have h3 : 0 < (f L[j]).count c := List.count_pos_iff.2 hcj
  omega

theorem count_flatMap_two {α β : Type} [DecidableEq β] (f : α → List β)
    (L : List α) (i j : Nat) (hi : i < L.length) (hj : j < L.length) (hij : i ≠ j)
    (c : β) (hci : c ∈ f L[i]) (hcj : c ∈ f L[j]) :
    2 ≤ (L.flatMap f).count c := by
  rcases Nat.lt_or_ge i j with h | h
  · exact count_flatMap_two_aux f L i j hi hj h c hci hcj
  · have hj2 : j < i := by omega
    exact count_flatMap_two_aux f L j i hj hi hj2 c hcj hci

/-! ## Reachability in a committed tree of valid shape -/

theorem reachCT_transGen {t : CTree} {k : Nat} (h : ReachCT t k) :
    k = 0 ∨ Relation.TransGen (ctreeEdge t) 0 k := by
  induction h with
  | zero => exact Or.inl rfl
  | step a b _ hedge ih =>
    rcases ih with rfl | htg
    · exact Or.inr (Relation.TransGen.single hedge)
    · exact Or.inr (htg.tail hedge)

theorem ctShape_reach (t : CTree) (hs : CTreeShape t) :
    ∀ j, j < t.nodes.length → ReachCT t j := by
  have hirr : IsIrrefl (Fin t.nodes.length)
      (Relation.TransGen (fun p j => ctreeEdge t p.1 j.1)) := by
    constructor
    intro a htg
    exact hs.acyclic a.1
      (Relation.TransGen.lift (fun (x : Fin t.nodes.length) => x.1)
        (fun _ _ h => h) htg)
  have hwf' : WellFounded (Relation.TransGen
      (fun (p j : Fin t.nodes.length) => ctreeEdge t p.1 j.1)) :=
    Finite.wellFounded_of_trans_of_irrefl _
  have hwf : WellFounded (fun (p j : Fin t.nodes.length) => ctreeEdge t p.1 j.1) := by
    apply Subrelation.wf _ hwf'
    intro a b h
    exact Relation.TransGen.single h
  have main : ∀ (x : Fin t.nodes.length), ReachCT t x.1 := by
    intro x
    induction x using WellFounded.induction hwf with
    | _ y ih =>
      by_cases h0 : y.1 = 0
      · rw [h0]
        exact ReachCT.zero
      · have hcy : (childOcc t).count y.1 = 1 := hs.unique_parent y.1 y.2 h0
        have hmem : y.1 ∈ childOcc t := List.count_pos_iff.1 (by omega)
        obtain ⟨np, hnp, hcc⟩ := List.mem_flatMap.1 hmem
        obtain ⟨i, hi, hieq⟩ := List.getElem_of_mem hnp
        have hedge : ctreeEdge t i y.1 :=
          ⟨np, by rw [List.getElem?_eq_getElem hi, hieq], hcc⟩
        exact ReachCT.step i y.1 (ih ⟨i, hi⟩ hedge) hedge
  intro j hj
  exact main ⟨j, hj⟩

theorem ctShape_zero_not_child (t : CTree) (hs : CTreeShape t) :
    0 ∉ childOcc t := by
  intro hmem
  obtain ⟨np, hnp, hcc⟩ := List.mem_flatMap.1 hmem
  obtain ⟨i, hi, hieq⟩ := List.getElem_of_mem hnp
  have hedge : ctreeEdge t i 0 :=
    ⟨np, by rw [List.getElem?_eq_getElem hi, hieq], hcc⟩
  have hre : ReachCT t i := ctShape_reach t hs i hi
  rcases reachCT_transGen hre with rfl | htg
  · exact hs.acyclic 0 (Relation.TransGen.single hedge)
  · exact hs.acyclic 0 (htg.tail hedge)

/-! ## Soundness of the CLI breadth-first traversal on valid shapes -/

theorem nodup_bounded_length {l : List Nat} {n : Nat} (hnd : l.Nodup)
    (hb : ∀ x ∈ l, x < n) : l.length ≤ n := by
  have hsub : l.Subperm (List.range n) :=
    List.Nodup.subperm hnd (fun x hx => List.mem_range.2 (hb x hx))
  simpa using hsub.length_le

theorem cliVisitOrder_sound (t : CTree)
    (hcv : ∀ c ∈ childOcc t, c < t.nodes.length)
    (hup : ∀ j, j < t.nodes.length → j ≠ 0 → (childOcc t).count j = 1)
    (hnzc : 0 ∉ childOcc t) :
    ∀ (fuel : Nat) (Q V : List Nat),
    (V ++ Q).Nodup →
    (∀ x ∈ V ++ Q, x < t.nodes.length) →
    (∀ x ∈ V ++ Q, x = 0 ∨ ∃ a ∈ V, ctreeEdge t a x) →
    (∀ x ∈ V, ∀ nd, t.nodes[x]? = some nd → ∀ c ∈ ctChildren nd, c ∈ V ++ Q) →
    2 * (t.nodes.length - V.length) + Q.length ≤ fuel →
    ∃ M, cliVisitOrder t fuel Q = some M ∧
      (V ++ M).Nodup ∧
      (∀ x ∈ M, x < t.nodes.length) ∧
      (∀ x ∈ Q, x ∈ M) ∧
      (∀ x ∈ V ++ M, ∀ nd, t.nodes[x]? = some nd → ∀ c ∈ ctChildren nd, c ∈ V ++ M) := by
  intro fuel
  induction fuel with
  | zero =>
    intro Q V hnd hin hprov hcl hfuel
    cases Q with
    | nil =>
      refine ⟨[], rfl, by simpa using hnd, by simp, by simp, ?_⟩
      intro x hx nd hnd' c hc
      exact hcl x (by simpa using hx) nd hnd' c hc
    | cons hd tl =>
      exfalso
      simp only [List.length_cons] at hfuel
      omega
  | succ f ih =>
    intro Q V hnd hin hprov hcl hfuel
    cases Q with
    | nil =>
      refine ⟨[], rfl, by simpa using hnd, by simp, by simp, ?_⟩
      intro x hx nd hnd' c hc
      exact hcl x (by simpa using hx) nd hnd' c hc
    | cons k rest =>
      have hkV : k ∉ V := fun hcon =>
        (List.disjoint_of_nodup_append hnd) hcon (by simp)
      have hkn : k < t.nodes.length := hin k (by simp)
      have hnk : t.nodes[k]? = some t.nodes[k] := List.getElem?_eq_getElem hkn
      have hkmem : t.nodes[k] ∈ t.nodes := List.getElem_mem hkn
      have hVlt : V.length < t.nodes.length := by
        have hnd1 : (V ++ [k]).Nodup := by
          have : (V ++ [k]).Sublist (V ++ k :: rest) := by
            apply List.Sublist.append_left
            simp
          exact this.nodup hnd
        have hb1 : ∀ x ∈ V ++ [k], x < t.nodes.length := by
          intro x hx
          simp only [List.mem_append, List.mem_singleton] at hx
          rcases hx with hx | rfl
          · exact hin x (by simp [hx])
          · exact hkn
        have := nodup_bounded_length hnd1 hb1
        simp at this
        omega
      -- the new ghost visited list
      have hndVk : (V ++ [k] ++ rest).Nodup := by
        have : V ++ [k] ++ rest = V ++ k :: rest := by simp
        rw [this]
        exact hnd
      have hchocc : ∀ c ∈ ctChildren t.nodes[k], c ∈ childOcc t := by
        intro c hc
        exact List.mem_flatMap.2 ⟨t.nodes[k], hkmem, hc⟩
      have hfresh : ∀ c ∈ ctChildren t.nodes[k], c ∉ V ++ k :: rest := by
        intro c hc hcmem
        have hc0 : c ≠ 0 := fun he => hnzc (he ▸ hchocc c hc)
        rcases hprov c hcmem with he | ⟨a, haV, na, hna, hca⟩
        · exact hc0 he
        · have han : a < t.nodes.length := hin a (by simp [haV])
          have hnaval : na = t.nodes[a] := by
            rw [List.getElem?_eq_getElem han] at hna
            exact (Option.some.injEq .. ▸ hna).symm
          have hak : a ≠ k := fun he => hkV (he ▸ haV)
          have h2 : 2 ≤ (childOcc t).count c := by
            apply count_flatMap_two ctChildren t.nodes a k han hkn hak c
            · rw [← hnaval]
              exact hca
            · exact hc
          have h1 : (childOcc t).count c = 1 :=
            hup c (hcv c (hchocc c hc)) hc0
          omega
      have hchnd : (ctChildren t.nodes[k]).Nodup := by
        cases hknd : t.nodes[k] with
        | leaf v p => simp [ctChildren]
        | test f0 th0 op0 cl cr dl p =>
          have hne : ¬ cl = cr := by
            intro he
            subst he
            have hclocc : cl ∈ ctChildren t.nodes[k] := by
              rw [hknd]
              simp [ctChildren]
            have hcount : (ctChildren (CNode.test f0 th0 op0 cl cl dl p)).count cl
                ≤ (childOcc t).count cl := by
              have := count_flatMap_getElem ctChildren t.nodes k hkn cl
              rw [hknd] at this
              exact this
            simp [ctChildren] at hcount
            have hcl0 : cl ≠ 0 := fun he0 => hnzc (he0 ▸ hchocc cl hclocc)
            have h1 : (childOcc t).count cl = 1 :=
              hup cl (hcv cl (hchocc cl hclocc)) hcl0
            omega
          simp [ctChildren, hne]
      -- invariants for the recursive call on rest ++ children
      have hndnew : (V ++ [k] ++ (rest ++ ctChildren t.nodes[k])).Nodup := by
        have hX : ((V ++ k :: rest) ++ ctChildren t.nodes[k]).Nodup := by
          apply List.Nodup.append hnd hchnd
          intro a ha hamem
          exact hfresh a hamem ha
        have hperm : ((V ++ k :: rest) ++ ctChildren t.nodes[k]).Perm
            (V ++ [k] ++ (rest ++ ctChildren t.nodes[k])) := by
          simp [List.append_assoc]
        exact hperm.nodup hX
      have hinnew : ∀ x ∈ V ++ [k] ++ (rest ++ ctChildren t.nodes[k]),
          x < t.nodes.length := by
        intro x hx
        simp only [List.mem_append, List.mem_singleton] at hx
        rcases hx with (hx | rfl) | hx | hx
        · exact hin x (by simp [hx])
        · exact hkn
        · exact hin x (by simp [hx])
        · exact hcv x (hchocc x hx)
      have hprovnew : ∀ x ∈ V ++ [k] ++ (rest ++ ctChildren t.nodes[k]),
          x = 0 ∨ ∃ a ∈ V ++ [k], ctreeEdge t a x := by
        intro x hx
        simp only [List.mem_append, List.mem_singleton] at hx
        have hold : x ∈ V ++ k :: rest → x = 0 ∨ ∃ a ∈ V ++ [k], ctreeEdge t a x := by
          intro hxo
          rcases hprov x hxo with he | ⟨a, haV, hae⟩
          · exact Or.inl he
          · exact Or.inr ⟨a, by simp [haV], hae⟩
        rcases hx with (hx | rfl) | hx | hx
        · exact hold (by simp [hx])
        · exact hold (by simp)
        · exact hold (by simp [hx])
        · exact Or.inr ⟨k, by simp, t.nodes[k], hnk, hx⟩
      have hclnew : ∀ x ∈ V ++ [k], ∀ nd, t.nodes[x]? = some nd →
          ∀ c ∈ ctChildren nd, c ∈ V ++ [k] ++ (rest ++ ctChildren t.nodes[k]) := by
        intro x hx nd hnd' c hc
        simp only [List.mem_append, List.mem_singleton] at hx
        simp only [List.mem_append, List.mem_singleton]
        rcases hx with hx | rfl
        · have := hcl x hx nd hnd' c hc
          simp only [List.mem_append, List.mem_cons] at this
          tauto
        · rw [hnk] at hnd'
          have : nd = t.nodes[x] := (Option.some.injEq .. ▸ hnd').symm
          subst this
          exact Or.inr (Or.inr hc)
      have hlenV : (V ++ [k]).length = V.length + 1 := by simp
      obtain ⟨M', hM', hndM, hbM, hQM, hclM⟩ :=
        ih (rest ++ ctChildren t.nodes[k]) (V ++ [k]) hndnew hinnew hprovnew hclnew
          (by
            have hch2 : (ctChildren t.nodes[k]).length ≤ 2 := by
              cases t.nodes[k] <;> simp [ctChildren]
            simp only [List.length_append, hlenV, List.length_cons] at hfuel ⊢
            omega)
      -- assemble the step
      have hstep : cliVisitOrder t (f + 1) (k :: rest) = some (k :: M') := by
        cases hknd : t.nodes[k] with
        | leaf v p =>
          rw [hknd] at hnk hM'
          have hrw : rest ++ ctChildren (CNode.leaf v p) = rest := by
            simp [ctChildren]
          rw [hrw] at hM'
          simp only [cliVisitOrder, hnk, hM']
        | test f0 th0 op0 cl cr dl p =>
          rw [hknd] at hnk hM'
          have hrw : rest ++ ctChildren (CNode.test f0 th0 op0 cl cr dl p)
              = rest ++ [cl, cr] := by
            simp [ctChildren]
          rw [hrw] at hM'
          simp only [cliVisitOrder, hnk, hM']
      refine ⟨k :: M', hstep, ?_, ?_, ?_, ?_⟩
      · have : V ++ k :: M' = V ++ [k] ++ M' := by simp
        rw [this]
        exact hndM
      · intro x hx
        rcases List.mem_cons.1 hx with rfl | hx
        · exact hkn
        · exact hbM x hx
      · intro x hx
        rcases List.mem_cons.1 hx with rfl | hx
        · exact List.mem_cons_self _ _
        · exact List.mem_cons_of_mem _ (hQM x (by simp [hx]))
      · intro x hx nd hnd' c hc
        have hx2 : x ∈ V ++ [k] ++ M' := by
          simpa [List.append_assoc] using hx
        have := hclM x hx2 nd hnd' c hc
        simpa [List.append_assoc] using this

/-! ## The printing loop refines the visit order, the per-node rendering and
the leaf counter -/

theorem cliTreeLoop_order (t : CTree) : ∀ (fuel : Nat) (Q : List Nat),
    (∀ lines c, cliTreeLoop t fuel Q = some (lines, c) →
       cliVisitOrder t fuel Q = some (lines.map Line.nid) ∧
       c = (lines.filter Line.isLeafLine).length ∧
       (∀ l ∈ lines, ∃ n, t.nodes[l.nid]? = some n ∧ l = renderLine l.nid n)) ∧
    (∀ ms, cliVisitOrder t fuel Q = some ms →
       ∃ lines c, cliTreeLoop t fuel Q = some (lines, c)) := by
  intro fuel
  induction fuel with
  | zero =>
    intro Q
    cases Q with
    | nil =>
      constructor
      · intro lines c h
        have h' : some (([] : List Line), (0 : Nat)) = some (lines, c) := h
        simp only [Option.some.injEq, Prod.mk.injEq] at h'
        obtain ⟨h1, h2⟩ := h'
        subst h1
        subst h2
        refine ⟨by simp [cliVisitOrder], by simp, by simp⟩
      · intro ms _
        exact ⟨[], 0, rfl⟩
    | cons nid rest =>
      constructor
      · intro lines c h
        simp [cliTreeLoop] at h
      · intro ms h
        simp [cliVisitOrder] at h
  | succ f ih =>
    intro Q
    cases Q with
    | nil =>
      constructor
      · intro lines c h
        have h' : some (([] : List Line), (0 : Nat)) = some (lines, c) := h
        simp only [Option.some.injEq, Prod.mk.injEq] at h'
        obtain ⟨h1, h2⟩ := h'
        subst h1
        subst h2
        refine ⟨by simp [cliVisitOrder], by simp, by simp⟩
      · intro ms _
        exact ⟨[], 0, rfl⟩
    | cons nid rest =>
      cases hnd : t.nodes[nid]? with
      | none =>
        constructor
        · intro lines c h
          simp [cliTreeLoop, hnd] at h
        · intro ms h
          simp [cliVisitOrder, hnd] at h
      | some n =>
        cases n with
        | leaf v p =>
          constructor
          · intro lines c h
            simp only [cliTreeLoop, hnd] at h
            cases hrec : cliTreeLoop t f rest with
            | none => rw [hrec] at h; simp at h
            | some lc =>
              obtain ⟨ls, c'⟩ := lc
              rw [hrec] at h
              simp only [Option.some.injEq, Prod.mk.injEq] at h
              obtain ⟨h1, h2⟩ := h
              subst h1
              subst h2
              obtain ⟨ho, hc, hr⟩ := (ih rest).1 ls c' hrec
              refine ⟨?_, ?_, ?_⟩
              · simp only [cliVisitOrder, hnd, ho]
                simp [Line.nid]
              · simp [List.filter_cons, Line.isLeafLine, hc]
              · intro l hl
                rcases List.mem_cons.1 hl with rfl | hl
                · refine ⟨.leaf v p, ?_, ?_⟩
                  · simpa [Line.nid] using hnd
                  · simp [renderLine, Line.nid]
                · exact hr l hl
          · intro ms h
            simp only [cliVisitOrder, hnd] at h
            cases hrec : cliVisitOrder t f rest with
            | none => rw [hrec] at h; simp at h
            | some ms' =>
              obtain ⟨ls, c', hl⟩ := (ih rest).2 ms' hrec
              exact ⟨.leafLine nid v p :: ls, c' + 1, by simp only [cliTreeLoop, hnd, hl]⟩
        | test f0 th0 op0 cl cr dl p =>
          constructor
          · intro lines c h
            simp only [cliTreeLoop, hnd] at h
            cases hrec : cliTreeLoop t f (rest ++ [cl, cr]) with
            | none => rw [hrec] at h; simp at h
            | some lc =>
              obtain ⟨ls, c'⟩ := lc
              rw [hrec] at h
              simp only [Option.some.injEq, Prod.mk.injEq] at h
              obtain ⟨h1, h2⟩ := h
              subst h1
              subst h2
              obtain ⟨ho, hc, hr⟩ := (ih (rest ++ [cl, cr])).1 ls c' hrec
              refine ⟨?_, ?_, ?_⟩
              · simp only [cliVisitOrder, hnd, ho]
                simp [Line.nid]
              · simp [List.filter_cons, Line.isLeafLine, hc]
              · intro l hl
                rcases List.mem_cons.1 hl with rfl | hl
                · refine ⟨.test f0 th0 op0 cl cr dl p, ?_, ?_⟩
                  · simpa [Line.nid] using hnd
                  · simp [renderLine, Line.nid]
                · exact hr l hl
          · intro ms h
            simp only [cliVisitOrder, hnd] at h
            cases hrec : cliVisitOrder t f (rest ++ [cl, cr]) with
            | none => rw [hrec] at h; simp at h
            | some ms' =>
              obtain ⟨ls, c', hl⟩ := (ih (rest ++ [cl, cr])).2 ms' hrec
              exact ⟨.testLine nid f0 th0 (PrintOp op0) cl cr dl
                  (shownParent (.test f0 th0 op0 cl cr dl p)) :: ls, c',
                by simp only [cliTreeLoop, hnd, hl]⟩

/-! ## Remaining support lemmas for the claims -/

theorem forall₂_imp_of_mem {α β : Type} {R S : α → β → Prop} :
    ∀ {l₁ : List α} {l₂ : List β}, List.Forall₂ R l₁ l₂ →
      (∀ a ∈ l₁, ∀ b, R a b → S a b) → List.Forall₂ S l₁ l₂ := by
  intro l₁ l₂ h
  induction h with
  | nil => intro _; exact List.Forall₂.nil
  | cons hr _ ih =>
    intro hm
    exact List.Forall₂.cons (hm _ (List.mem_cons_self _ _) _ hr)
      (ih fun a ha b hr2 => hm a (List.mem_cons_of_mem _ ha) b hr2)

theorem forall₂_mem_right {α β : Type} {R : α → β → Prop} :
    ∀ {l₁ : List α} {l₂ : List β}, List.Forall₂ R l₁ l₂ →
      ∀ {b : β}, b ∈ l₂ → ∃ a ∈ l₁, R a b := by
  intro l₁ l₂ h
  induction h with
  | nil => intro b hb; simp at hb
  | cons hr _ ih =>
    intro b hb
    rcases List.mem_cons.1 hb with rfl | hb
    · exact ⟨_, List.mem_cons_self _ _, hr⟩
    · obtain ⟨a, ha, hab⟩ := ih hb
      exact ⟨a, List.mem_cons_of_mem _ ha, hab⟩

theorem getTree_putTree {b : ModelBuilder} {ti : Int} {t t' : TreeDraft}
    (h : getTree b ti = some t) : getTree (putTree b ti t') ti = some t' := by
  unfold getTree at h ⊢
  by_cases hti : 0 ≤ ti
  · rw [if_pos hti] at h ⊢
    obtain ⟨hlen, -⟩ := List.getElem?_eq_some.1 h
    exact List.getElem?_set_self hlen
  · rw [if_neg hti] at h
    cases h

theorem setTestNode_fail_iff {b : ModelBuilder} {ti : Int} {t : TreeDraft}
    (hgt : getTree b ti = some t) (k : Int) (f : Nat) (op : Operator)
    (th : TlFloat) (dl : Bool) (lk rk : Int) :
    (SetTestNode b ti k f op th dl lk rk).1 = false ↔
      (findNode t.nodes k = none ∨
       (∃ nd, findNode t.nodes k = some nd ∧ nd ≠ DraftNode.empty) ∨
       b.num_features ≤ f ∨ lk = rk) := by
  cases hfn : findNode t.nodes k with
  | none =>
    have hres : (SetTestNode b ti k f op th dl lk rk).1 = false := by
      simp [SetTestNode, hgt, hfn]
    exact iff_of_true hres (Or.inl rfl)
  | some nd =>
    cases nd with
    | empty =>
      by_cases hcond : f < b.num_features ∧ lk ≠ rk
      · have hres : (SetTestNode b ti k f op th dl lk rk).1 = true := by
          simp [SetTestNode, hgt, hfn, if_pos hcond]
        apply iff_of_false (by simp [hres])
        rintro (h | ⟨nd2, hnd2, hne⟩ | h | h)
        · cases h
        · cases hnd2
          exact hne rfl
        · omega
        · exact hcond.2 h
      · have hres : (SetTestNode b ti k f op th dl lk rk).1 = false := by
          simp [SetTestNode, hgt, hfn, if_neg hcond]
        apply iff_of_true hres
        by_cases hf : f < b.num_features
        · have : lk = rk := by
            by_contra hne
            exact hcond ⟨hf, hne⟩
          exact Or.inr (Or.inr (Or.inr this))
        · exact Or.inr (Or.inr (Or.inl (by omega)))
    | test f1 op1 th1 dl1 l1 r1 =>
      have hres : (SetTestNode b ti k f op th dl lk rk).1 = false := by
        simp [SetTestNode, hgt, hfn]
      exact iff_of_true hres (Or.inr (Or.inl ⟨_, rfl, by simp⟩))
    | leaf v =>
      have hres : (SetTestNode b ti k f op th dl lk rk).1 = false := by
        simp [SetTestNode, hgt, hfn]
      exact iff_of_true hres (Or.inr (Or.inl ⟨_, rfl, by simp⟩))

theorem setTestNode_fail_unchanged {b : ModelBuilder} (ti : Int) (k : Int) (f : Nat)
    (op : Operator) (th : TlFloat) (dl : Bool) (lk rk : Int)
    (h : (SetTestNode b ti k f op th dl lk rk).1 = false) :
    (SetTestNode b ti k f op th dl lk rk).2 = b := by
  cases hgt : getTree b ti with
  | none => simp [SetTestNode, hgt]
  | some t =>
    cases hfn : findNode t.nodes k with
    | none => simp [SetTestNode, hgt, hfn]
    | some nd =>
      cases nd with
      | empty =>
        by_cases hcond : f < b.num_features ∧ lk ≠ rk
        · exfalso
          have hres : (SetTestNode b ti k f op th dl lk rk).1 = true := by
            simp [SetTestNode, hgt, hfn, if_pos hcond]
          rw [hres] at h
          cases h
        · simp [SetTestNode, hgt, hfn, if_neg hcond]
      | test f1 op1 th1 dl1 l1 r1 => simp [SetTestNode, hgt, hfn]
      | leaf v => simp [SetTestNode, hgt, hfn]

theorem setLeafNode_fail_iff {b : ModelBuilder} {ti : Int} {t : TreeDraft}
    (hgt : getTree b ti = some t) (k : Int) (v : TlFloat) :
    (SetLeafNode b ti k v).1 = false ↔
      (findNode t.nodes k = none ∨
       (∃ nd, findNode t.nodes k = some nd ∧ nd ≠ DraftNode.empty)) := by
  cases hfn : findNode t.nodes k with
  | none =>
    have hres : (SetLeafNode b ti k v).1 = false := by
      simp [SetLeafNode, hgt, hfn]
    exact iff_of_true hres (Or.inl rfl)
  | some nd =>
    cases nd with
    | empty =>
      have hres : (SetLeafNode b ti k v).1 = true := by
        simp [SetLeafNode, hgt, hfn]
      apply iff_of_false (by simp [hres])
      rintro (h | ⟨nd2, hnd2, hne⟩)
      · cases h
      · cases hnd2
        exact hne rfl
    | test f1 op1 th1 dl1 l1 r1 =>
      have hres : (SetLeafNode b ti k v).1 = false := by
        simp [SetLeafNode, hgt, hfn]
      exact iff_of_true hres (Or.inr ⟨_, rfl, by simp⟩)
    | leaf v1 =>
      have hres : (SetLeafNode b ti k v).1 = false := by
        simp [SetLeafNode, hgt, hfn]
      exact iff_of_true hres (Or.inr ⟨_, rfl, by simp⟩)

theorem setLeafNode_fail_unchanged {b : ModelBuilder} (ti : Int) (k : Int) (v : TlFloat)
    (h : (SetLeafNode b ti k v).1 = false) :
    (SetLeafNode b ti k v).2 = b := by
  cases hgt : getTree b ti with
  | none => simp [SetLeafNode, hgt]
  | some t =>
    cases hfn : findNode t.nodes k with
    | none => simp [SetLeafNode, hgt, hfn]
    | some nd =>
      cases nd with
      | empty =>
        exfalso
        have hres : (SetLeafNode b ti k v).1 = true := by
          simp [SetLeafNode, hgt, hfn]
        rw [hres] at h
        cases h
      | test f1 op1 th1 dl1 l1 r1 => simp [SetLeafNode, hgt, hfn]
      | leaf v1 => simp [SetLeafNode, hgt, hfn]

theorem setTestNode_success_state {b : ModelBuilder} {ti : Int} {t : TreeDraft}
    (hgt : getTree b ti = some t) {k : Int} {f : Nat} {op : Operator}
    {th : TlFloat} {dl : Bool} {lk rk : Int} {b' : ModelBuilder}
    (h : SetTestNode b ti k f op th dl lk rk = (true, b')) :
    getTree b' ti =
      some ⟨setNode t.nodes k (.test f op th dl lk rk), t.root⟩ ∧
    findNode (setNode t.nodes k (.test f op th dl lk rk)) k =
      some (.test f op th dl lk rk) := by
  simp only [SetTestNode, hgt] at h
  cases hfn : findNode t.nodes k with
  | none => rw [hfn] at h; cases h
  | some nd =>
    rw [hfn] at h
    cases nd with
    | empty =>
      by_cases hcond : f < b.num_features ∧ lk ≠ rk
      · rw [if_pos hcond] at h
        have hb' : b' = putTree b ti ⟨setNode t.nodes k (.test f op th dl lk rk), t.root⟩ := by
          have := congrArg Prod.snd h
          exact this.symm
        rw [hb']
        refine ⟨getTree_putTree hgt, ?_⟩
        apply findNode_setNode_self
        exact List.mem_map.2 ⟨(k, DraftNode.empty), findNode_mem hfn, rfl⟩
      · rw [if_neg hcond] at h
        cases h
    | test f1 op1 th1 dl1 l1 r1 => cases h
    | leaf v => cases h

theorem setLeafNode_success_state {b : ModelBuilder} {ti : Int} {t : TreeDraft}
    (hgt : getTree b ti = some t) {k : Int} {v : TlFloat} {b' : ModelBuilder}
    (h : SetLeafNode b ti k v = (true, b')) :
    getTree b' ti = some ⟨setNode t.nodes k (.leaf v), t.root⟩ ∧
    findNode (setNode t.nodes k (.leaf v)) k = some (.leaf v) := by
  simp only [SetLeafNode, hgt] at h
  cases hfn : findNode t.nodes k with
  | none => rw [hfn] at h; cases h
  | some nd =>
    rw [hfn] at h
    cases nd with
    | empty =>
      have hb' : b' = putTree b ti ⟨setNode t.nodes k (.leaf v), t.root⟩ := by
        have := congrArg Prod.snd h
        exact this.symm
      rw [hb']
      refine ⟨getTree_putTree hgt, ?_⟩
      apply findNode_setNode_self
      exact List.mem_map.2 ⟨(k, DraftNode.empty), findNode_mem hfn, rfl⟩
    | test f1 op1 th1 dl1 l1 r1 => cases h
    | leaf v1 => cases h

/-! ## The claims -/

/-- C1, counterexample to the claim as stated.  The sequence
CreateTree / CreateNode(0) / SetRootNode(0) / SetTestNode(0, children 1 and 2)
leaves a tree that satisfies every condition the claim lists (one designated
root, every node reachable from it, no Empty node, no cycle, no shared
child) — the declared child keys 1 and 2 were simply never created, and a
missing key is not a node — yet `CommitModel` fails with a dangling-child
error instead of succeeding. -/
theorem c1_counterexample :
    (∀ t ∈ (runOps 1 [.createTree (-1), .createNode 0 0, .setRootNode 0 0,
        .setTestNode 0 0 0 .kLT 0 true 1 2]).trees, ListedValid t) ∧
    (CommitModel (runOps 1 [.createTree (-1), .createNode 0 0, .setRootNode 0 0,
        .setTestNode 0 0 0 .kLT 0 true 1 2])).1 = .error .danglingChild := by
  constructor
  · intro t ht
    have htree : (runOps 1 [BuilderOp.createTree (-1), .createNode 0 0, .setRootNode 0 0,
        .setTestNode 0 0 0 .kLT 0 true 1 2]).trees
        = [⟨[(0, .test 0 .kLT 0 true 1 2)], some 0⟩] := by decide
    rw [htree, List.mem_singleton] at ht
    subst ht
    refine ⟨⟨0, rfl, by decide⟩, ?_, by decide, ?_, by decide⟩
    · intro k hk
      have hk' : k = 0 := by simpa [treeKeys] using hk
      subst hk'
      exact ReachDraft.root 0 rfl
    · intro k
      apply transGen_irrefl_of_levels (fun x : Int => if x = 0 then 0 else 1)
      rintro a c ⟨nd, hf, hc⟩
      have hmem := findNode_mem hf
      simp only [List.mem_singleton, Prod.mk.injEq] at hmem
      obtain ⟨rfl, rfl⟩ := hmem
      simp only [draftChildren, List.mem_cons, List.mem_singleton] at hc
      rcases hc with rfl | hc
      · decide
      · simp at hc
        subst hc
        decide
  · decide

/-- C1 (amended): for every sequence of CreateTree / CreateNode / SetTestNode /
SetLeafNode / SetRootNode calls that leaves every tree structurally valid —
the conditions the claim lists (exactly one designated root, every node
reachable from it, no node still Empty, no cycles, no key appearing as a
child of two parents) together with the closure condition of §3 that every
child key a Test node declares exists in the tree — `CommitModel` succeeds
and each committed tree's node count equals the corresponding draft's node
count. -/
theorem c1_commit_of_valid (nf : Nat) (ops : List BuilderOp)
    (hv : ∀ t ∈ (runOps nf ops).trees, StructurallyValid t) :
    ∃ m, (CommitModel (runOps nf ops)).1 = .ok m ∧
      m.trees.length = (runOps nf ops).trees.length ∧
      List.Forall₂ (fun dt ct => ct.nodes.length = dt.nodes.length)
        (runOps nf ops).trees m.trees := by
  have hg := runOps_good nf ops
  have hall : ∀ t ∈ (runOps nf ops).trees,
      ∃ ct, validateCompact t = .ok ct ∧ ct.nodes.length = t.nodes.length :=
    fun t ht => validateCompact_ok t (hg t ht) (hv t ht)
  obtain ⟨m, hm⟩ := commit_ok_of_all
    (fun t ht => ⟨(hall t ht).choose, (hall t ht).choose_spec.1⟩)
  have hfa := commit_ok_forall₂ hm
  refine ⟨m, hm, hfa.length_eq.symm, ?_⟩
  apply forall₂_imp_of_mem hfa
  intro dt hdt ct hok
  obtain ⟨ct', hct', hlen⟩ := hall dt hdt
  rw [hok] at hct'
  cases hct'
  exact hlen

/-- C1, witness: the three-node scenario of §8 (root Test node with two Leaf
children) runs through the amended claim. -/
theorem c1_commit_of_valid_witness :
    ∃ m, (CommitModel (runOps 4 [.createTree (-1), .createNode 0 0, .createNode 0 1,
        .createNode 0 2, .setRootNode 0 0, .setTestNode 0 0 3 .kLE 1 true 1 2,
        .setLeafNode 0 1 (-(2)), .setLeafNode 0 2 7])).1 = .ok m ∧
      m.trees.length = (runOps 4 [.createTree (-1), .createNode 0 0, .createNode 0 1,
        .createNode 0 2, .setRootNode 0 0, .setTestNode 0 0 3 .kLE 1 true 1 2,
        .setLeafNode 0 1 (-(2)), .setLeafNode 0 2 7]).trees.length ∧
      List.Forall₂ (fun dt ct => ct.nodes.length = dt.nodes.length)
        (runOps 4 [.createTree (-1), .createNode 0 0, .createNode 0 1,
          .createNode 0 2, .setRootNode 0 0, .setTestNode 0 0 3 .kLE 1 true 1 2,
          .setLeafNode 0 1 (-(2)), .setLeafNode 0 2 7]).trees m.trees := by
  apply c1_commit_of_valid
  intro t ht
  have htree : (runOps 4 [BuilderOp.createTree (-1), .createNode 0 0, .createNode 0 1,
      .createNode 0 2, .setRootNode 0 0, .setTestNode 0 0 3 .kLE 1 true 1 2,
      .setLeafNode 0 1 (-(2)), .setLeafNode 0 2 7]).trees
      = [⟨[(0, .test 3 .kLE 1 true 1 2), (1, .leaf (-(2))), (2, .leaf 7)], some 0⟩] := by
    decide
  rw [htree, List.mem_singleton] at ht
  subst ht
  refine ⟨⟨⟨0, rfl, by decide⟩, ?_, by decide, ?_, by decide⟩, by decide⟩
  · intro k hk
    have hk' : k = 0 ∨ k = 1 ∨ k = 2 := by simpa [treeKeys] using hk
    rcases hk' with rfl | rfl | rfl
    · exact ReachDraft.root 0 rfl
    · exact ReachDraft.child 0 1 (ReachDraft.root 0 rfl)
        ⟨.test 3 .kLE 1 true 1 2, by decide, by decide⟩
    · exact ReachDraft.child 0 2 (ReachDraft.root 0 rfl)
        ⟨.test 3 .kLE 1 true 1 2, by decide, by decide⟩
  · intro k
    apply transGen_irrefl_of_levels (fun x : Int => if x = 0 then 0 else 1)
    rintro a c ⟨nd, hf, hc⟩
    have hmem := findNode_mem hf
    simp only [List.mem_cons, List.mem_singleton, List.not_mem_nil, or_false,
      Prod.mk.injEq] at hmem
    rcases hmem with ⟨rfl, rfl⟩ | ⟨rfl, rfl⟩ | ⟨rfl, rfl⟩
    · simp only [draftChildren, List.mem_cons, List.mem_singleton] at hc
      rcases hc with rfl | hc
      · decide
      · simp at hc
        subst hc
        decide
    · simp [draftChildren] at hc
    · simp [draftChildren] at hc

/-- C2: `CommitModel` is all-or-nothing and non-destructive: the builder's
drafts are returned unchanged in every case; if any draft fails validation
the commit produces no model at all; and a successful commit's trees are
exactly the per-draft validation/compaction results, one per draft. -/
theorem c2_commit_all_or_nothing (b : ModelBuilder) :
    (CommitModel b).2 = b ∧
    ((∃ t ∈ b.trees, ∀ ct, validateCompact t ≠ .ok ct) →
      ∀ m, (CommitModel b).1 ≠ .ok m) ∧
    (∀ m, (CommitModel b).1 = .ok m →
      List.Forall₂ (fun t ct => validateCompact t = .ok ct) b.trees m.trees) := by
  refine ⟨rfl, ?_, fun m hm => commit_ok_forall₂ hm⟩
  rintro ⟨t, ht, hno⟩ m hm
  obtain ⟨ct, hct⟩ := commit_all_of_ok hm t ht
  exact hno ct hct

/-- C2, witness: a builder holding one rootless draft keeps its drafts
across the failed commit and yields no model. -/
theorem c2_commit_all_or_nothing_witness :
    (CommitModel ⟨1, [⟨[], none⟩]⟩).2 = (⟨1, [⟨[], none⟩]⟩ : ModelBuilder) ∧
    (∀ m, (CommitModel ⟨1, [⟨[], none⟩]⟩).1 ≠ .ok m) := by
  have h := c2_commit_all_or_nothing ⟨1, [⟨[], none⟩]⟩
  refine ⟨h.1, h.2.1 ⟨⟨[], none⟩, by decide, ?_⟩⟩
  intro ct hct
  have hv : validateCompact ⟨[], none⟩ = .error .missingRoot := by decide
  rw [hv] at hct
  exact Except.noConfusion hct

/-- C3: on a valid tree index, `SetTestNode` fails exactly when the
addressed node does not exist, is not Empty, the feature id is not below
the `num_features` bound, or the two child keys coincide; `SetLeafNode`
fails exactly when the node does not exist or is not Empty; a failed call
leaves the builder (hence the addressed node) unchanged; and after a
successful type assignment any second assignment to the same node fails,
leaves the builder unchanged, and the node retains its first assignment. -/
theorem c3_set_node_contract (b : ModelBuilder) (ti : Int) (t : TreeDraft)
    (hgt : getTree b ti = some t) :
    (∀ (k : Int) (f : Nat) (op : Operator) (th : TlFloat) (dl : Bool) (lk rk : Int),
      ((SetTestNode b ti k f op th dl lk rk).1 = false ↔
        (findNode t.nodes k = none ∨
         (∃ nd, findNode t.nodes k = some nd ∧ nd ≠ DraftNode.empty) ∨
         b.num_features ≤ f ∨ lk = rk)) ∧
      ((SetTestNode b ti k f op th dl lk rk).1 = false →
        (SetTestNode b ti k f op th dl lk rk).2 = b)) ∧
    (∀ (k : Int) (v : TlFloat),
      ((SetLeafNode b ti k v).1 = false ↔
        (findNode t.nodes k = none ∨
         (∃ nd, findNode t.nodes k = some nd ∧ nd ≠ DraftNode.empty))) ∧
      ((SetLeafNode b ti k v).1 = false → (SetLeafNode b ti k v).2 = b)) ∧
    (∀ (k : Int) (f : Nat) (op : Operator) (th : TlFloat) (dl : Bool) (lk rk : Int)
        (b' : ModelBuilder), SetTestNode b ti k f op th dl lk rk = (true, b') →
      (∀ (f2 : Nat) (op2 : Operator) (th2 : TlFloat) (dl2 : Bool) (lk2 rk2 : Int),
        SetTestNode b' ti k f2 op2 th2 dl2 lk2 rk2 = (false, b')) ∧
      (∀ v2, SetLeafNode b' ti k v2 = (false, b')) ∧
      (∃ t', getTree b' ti = some t' ∧
        findNode t'.nodes k = some (.test f op th dl lk rk))) ∧
    (∀ (k : Int) (v : TlFloat) (b' : ModelBuilder), SetLeafNode b ti k v = (true, b') →
      (∀ (f2 : Nat) (op2 : Operator) (th2 : TlFloat) (dl2 : Bool) (lk2 rk2 : Int),
        SetTestNode b' ti k f2 op2 th2 dl2 lk2 rk2 = (false, b')) ∧
      (∀ v2, SetLeafNode b' ti k v2 = (false, b')) ∧
      (∃ t', getTree b' ti = some t' ∧ findNode t'.nodes k = some (.leaf v))) := by
  refine ⟨?_, ?_, ?_, ?_⟩
  · intro k f op th dl lk rk
    exact ⟨setTestNode_fail_iff hgt k f op th dl lk rk,
      setTestNode_fail_unchanged ti k f op th dl lk rk⟩
  · intro k v
    exact ⟨setLeafNode_fail_iff hgt k v, setLeafNode_fail_unchanged ti k v⟩
  · intro k f op th dl lk rk b' h
    obtain ⟨hgt', hfind'⟩ := setTestNode_success_state hgt h
    have hnotempty : ∃ nd, findNode (setNode t.nodes k (.test f op th dl lk rk)) k
        = some nd ∧ nd ≠ DraftNode.empty := ⟨_, hfind', by simp⟩
    refine ⟨?_, ?_, ⟨_, hgt', hfind'⟩⟩
    · intro f2 op2 th2 dl2 lk2 rk2
      have h1 : (SetTestNode b' ti k f2 op2 th2 dl2 lk2 rk2).1 = false :=
        (setTestNode_fail_iff hgt' k f2 op2 th2 dl2 lk2 rk2).2
          (Or.inr (Or.inl hnotempty))
      have h2 := setTestNode_fail_unchanged (b := b') ti k f2 op2 th2 dl2 lk2 rk2 h1
      exact Prod.ext h1 h2
    · intro v2
      have h1 : (SetLeafNode b' ti k v2).1 = false :=
        (setLeafNode_fail_iff hgt' k v2).2 (Or.inr hnotempty)
      have h2 := setLeafNode_fail_unchanged (b := b') ti k v2 h1
      exact Prod.ext h1 h2
  · intro k v b' h
    obtain ⟨hgt', hfind'⟩ := setLeafNode_success_state hgt h
    have hnotempty : ∃ nd, findNode (setNode t.nodes k (.leaf v)) k
        = some nd ∧ nd ≠ DraftNode.empty := ⟨_, hfind', by simp⟩
    refine ⟨?_, ?_, ⟨_, hgt', hfind'⟩⟩
    · intro f2 op2 th2 dl2 lk2 rk2
      have h1 : (SetTestNode b' ti k f2 op2 th2 dl2 lk2 rk2).1 = false :=
        (setTestNode_fail_iff hgt' k f2 op2 th2 dl2 lk2 rk2).2
          (Or.inr (Or.inl hnotempty))
      have h2 := setTestNode_fail_unchanged (b := b') ti k f2 op2 th2 dl2 lk2 rk2 h1
      exact Prod.ext h1 h2
    · intro v2
      have h1 : (SetLeafNode b' ti k v2).1 = false :=
        (setLeafNode_fail_iff hgt' k v2).2 (Or.inr hnotempty)
      have h2 := setLeafNode_fail_unchanged (b := b') ti k v2 h1
      exact Prod.ext h1 h2

/-- C3, witness: on a builder whose tree 0 holds an Empty node under key 7,
`SetTestNode` with a feature id at the bound fails. -/
theorem c3_set_node_contract_witness :
    (SetTestNode ⟨5, [⟨[(7, DraftNode.empty), (8, .leaf 1)], none⟩]⟩ 0 7 5 .kEQ 0 true 1 2).1
      = false :=
  ((c3_set_node_contract ⟨5, [⟨[(7, DraftNode.empty), (8, .leaf 1)], none⟩]⟩ 0
      ⟨[(7, DraftNode.empty), (8, .leaf 1)], none⟩ (by decide)).1
    7 5 .kEQ 0 true 1 2).1.2 (Or.inr (Or.inr (Or.inl (by decide))))

/-- C4: in every tree of a successfully committed model, the draft's
designated root node is stored at array index 0 (same state and payload as
the draft root node) and its parent index is absent. -/
theorem c4_root_at_index_zero (b : ModelBuilder) (m : Model)
    (h : (CommitModel b).1 = .ok m) :
    List.Forall₂ (fun dt ct => ∃ r nd cn, dt.root = some r ∧
      findNode dt.nodes r = some nd ∧ ct.nodes[0]? = some cn ∧
      CNode.parent cn = none ∧ nodeMatches nd cn = true) b.trees m.trees :=
  List.Forall₂.imp (fun _ _ hv => validateCompact_root hv) (commit_ok_forall₂ h)

/-- C4, witness: the committed three-node scenario tree has its root Test
node at index 0 with no parent. -/
theorem c4_root_at_index_zero_witness :
    List.Forall₂ (fun dt ct => ∃ r nd cn, dt.root = some r ∧
      findNode dt.nodes r = some nd ∧ ct.nodes[0]? = some cn ∧
      CNode.parent cn = none ∧ nodeMatches nd cn = true)
      (⟨4, [⟨[(0, .test 3 .kLE 1 true 1 2), (1, .leaf (-(2))), (2, .leaf 7)],
        some 0⟩]⟩ : ModelBuilder).trees
      (⟨[⟨[.test 3 1 .kLE 1 2 true none, .leaf (-(2)) (some 0),
        .leaf 7 (some 0)]⟩]⟩ : Model).trees :=
  c4_root_at_index_zero
    ⟨4, [⟨[(0, .test 3 .kLE 1 true 1 2), (1, .leaf (-(2))), (2, .leaf 7)], some 0⟩]⟩
    ⟨[⟨[.test 3 1 .kLE 1 2 true none, .leaf (-(2)) (some 0), .leaf 7 (some 0)]⟩]⟩
    (by decide)

/-- C5: whenever the CLI per-tree printing loop, started with the queue
holding index 0, completes, the sequence of printed node indices is exactly
the breadth-first visit order that enqueues a non-leaf node's left child
before its right child; each printed line is the rendering of the visited
node (index with leaf value and parent, or index with split feature,
threshold, operator text, child indices and default direction, the parent
field suppressed exactly for the root); and the reported leaf count equals
the number of leaf lines in that traversal. -/
theorem c5_printer_lines (t : CTree) (fuel : Nat) (lines : List Line) (nleaf : Nat)
    (h : cliTreeLoop t fuel [0] = some (lines, nleaf)) :
    cliVisitOrder t fuel [0] = some (lines.map Line.nid) ∧
    nleaf = (lines.filter Line.isLeafLine).length ∧
    (∀ l ∈ lines, ∃ n, t.nodes[l.nid]? = some n ∧ l = renderLine l.nid n) :=
  (cliTreeLoop_order t fuel [0]).1 lines nleaf h

/-- C5, witness: the printing loop on the committed three-node scenario tree
visits 0, 1, 2 in order and reports two leaves. -/
theorem c5_printer_lines_witness :
    cliVisitOrder ⟨[.test 3 1 .kLE 1 2 true none, .leaf (-(2)) (some 0),
        .leaf 7 (some 0)]⟩ 7 [0]
      = some (([.testLine 0 3 1 "<=" 1 2 true none, .leafLine 1 (-(2)) (some 0),
          .leafLine 2 7 (some 0)] : List Line).map Line.nid) ∧
    (2 : Nat) = (([.testLine 0 3 1 "<=" 1 2 true none, .leafLine 1 (-(2)) (some 0),
        .leafLine 2 7 (some 0)] : List Line).filter Line.isLeafLine).length := by
  have h := c5_printer_lines
    ⟨[.test 3 1 .kLE 1 2 true none, .leaf (-(2)) (some 0), .leaf 7 (some 0)]⟩ 7
    [.testLine 0 3 1 "<=" 1 2 true none, .leafLine 1 (-(2)) (some 0),
      .leafLine 2 7 (some 0)] 2 (by decide)
  exact ⟨h.1, h.2.1⟩

/-- C6: for every committed tree whose root (index 0) is a leaf, the
read-only inspection reports the parent index as absent, and a consumer —
the CLI loop reading that root leaf — observes the absent parent in the
leaf line it prints for index 0. -/
theorem c6_root_leaf_no_parent (b : ModelBuilder) (m : Model)
    (h : (CommitModel b).1 = .ok m) (ct : CTree) (hct : ct ∈ m.trees)
    (v : TlFloat) (p : Option Nat) (h0 : ct.nodes[0]? = some (.leaf v p)) :
    p = none ∧
    (∀ fuel lines nleaf, cliTreeLoop ct fuel [0] = some (lines, nleaf) →
      lines.head? = some (.leafLine 0 v none)) := by
  obtain ⟨dt, _, hv⟩ := forall₂_mem_right (commit_ok_forall₂ h) hct
  obtain ⟨r, nd, cn, _, _, h0', hp, _⟩ := validateCompact_root hv
  rw [h0] at h0'
  have hcn : cn = CNode.leaf v p := by
    simpa using h0'.symm
  subst hcn
  have hpn : p = none := hp
  subst hpn
  refine ⟨rfl, ?_⟩
  intro fuel lines nleaf hl
  cases fuel with
  | zero => simp [cliTreeLoop] at hl
  | succ f =>
    simp only [cliTreeLoop, h0] at hl
    have hl' : some ([Line.leafLine 0 v none], (0 + 1 : Nat)) = some (lines, nleaf) := hl
    simp only [Option.some.injEq, Prod.mk.injEq] at hl'
    rw [← hl'.1]
    rfl

/-- C6, witness: a committed single-leaf tree reports no parent at the root
and the CLI prints its leaf line with the absent parent. -/
theorem c6_root_leaf_no_parent_witness :
    (none : Option Nat) = none ∧
    ([Line.leafLine 0 7 none].head? = some (Line.leafLine 0 7 none)) := by
  have h := c6_root_leaf_no_parent ⟨1, [⟨[(5, .leaf 7)], some 5⟩]⟩ ⟨[⟨[.leaf 7 none]⟩]⟩
    (by decide) ⟨[.leaf 7 none]⟩ (by decide) 7 none (by decide)
  exact ⟨h.1, h.2 3 [Line.leafLine 0 7 none] 1 (by decide)⟩

/-- C7, counterexample to the claim as stated.  On an empty builder the
index `-1` lies outside the insertion range `0..=0`, so the claim predicts
no insertion and the failure signal `-1`; but `-1` is the append sentinel
documented in `frontend.h` ("use -1 to insert at the end"): the call inserts
a tree and returns position 0. -/
theorem c7_counterexample :
    ¬ ((0 : Int) ≤ -1 ∧ (-1 : Int) ≤ ((⟨1, []⟩ : ModelBuilder).trees.length : Int)) ∧
    (CreateTree ⟨1, []⟩ (-1)).1 = 0 ∧
    (CreateTree ⟨1, []⟩ (-1)).2.trees = [emptyTreeDraft] := by decide

/-- C7 (amended): `CreateTree` on a builder holding `n` trees inserts a new
empty tree draft at position `index` and returns that position whenever
`0 ≤ index ≤ n`; the sentinel `index = -1` (the documented default)
appends at the end and returns `n`; any other index performs no insertion
and returns the failure signal `-1`. -/
theorem c7_createTree (b : ModelBuilder) (i : Int) :
    (0 ≤ i ∧ i ≤ (b.trees.length : Int) →
      CreateTree b i = (i, ⟨b.num_features,
        b.trees.take i.toNat ++ emptyTreeDraft :: b.trees.drop i.toNat⟩)) ∧
    (i = -1 →
      CreateTree b i = ((b.trees.length : Int),
        ⟨b.num_features, b.trees ++ [emptyTreeDraft]⟩)) ∧
    (i < -1 ∨ (b.trees.length : Int) < i → CreateTree b i = (-1, b)) := by
  refine ⟨?_, ?_, ?_⟩
  · rintro ⟨h0, hn⟩
    have hne : ¬ i = -1 := by omega
    simp only [CreateTree, createTreePos, if_neg hne]
    rw [if_pos ⟨h0, hn⟩]
  · intro hi
    subst hi
    simp only [CreateTree, createTreePos, if_pos rfl]
    rw [if_pos ⟨Int.natCast_nonneg _, le_refl _⟩]
    simp
  · intro hi
    have h1 : ¬ i = -1 := by omega
    have h2 : ¬ ((0 : Int) ≤ i ∧ i ≤ (b.trees.length : Int)) := by omega
    simp only [CreateTree, createTreePos, if_neg h1]
    rw [if_neg h2]

/-- C7, witness: inserting at position 0 of an empty builder places the new
empty draft there and returns 0. -/
theorem c7_createTree_witness :
    CreateTree ⟨1, []⟩ 0 = (0, ⟨1, [emptyTreeDraft]⟩) := by
  have h := (c7_createTree ⟨1, []⟩ 0).1 ⟨by decide, by decide⟩
  simpa using h

/-- C8: committing twice with no mutating call in between — the second
commit running on the builder state the first one returned — yields models
with identical structure and values: the same tree count and, tree by tree,
the same node arrays. -/
theorem c8_commit_idempotent (b : ModelBuilder) (m1 m2 : Model)
    (h1 : (CommitModel b).1 = .ok m1)
    (h2 : (CommitModel ((CommitModel b).2)).1 = .ok m2) :
    m1.trees.length = m2.trees.length ∧
    List.Forall₂ (fun ct1 ct2 => ct1.nodes = ct2.nodes) m1.trees m2.trees := by
  have hb : (CommitModel b).2 = b := rfl
  rw [hb, h1] at h2
  have hm : m1 = m2 := by simpa using h2
  subst hm
  exact ⟨rfl, List.forall₂_same.2 fun x _ => rfl⟩

/-- C8, witness: the scenario builder commits to the same model twice. -/
theorem c8_commit_idempotent_witness :
    (⟨[⟨[.test 3 1 .kLE 1 2 true none, .leaf (-(2)) (some 0),
        .leaf 7 (some 0)]⟩]⟩ : Model).trees.length
      = (⟨[⟨[.test 3 1 .kLE 1 2 true none, .leaf (-(2)) (some 0),
        .leaf 7 (some 0)]⟩]⟩ : Model).trees.length ∧
    List.Forall₂ (fun ct1 ct2 => ct1.nodes = ct2.nodes)
      (⟨[⟨[.test 3 1 .kLE 1 2 true none, .leaf (-(2)) (some 0),
        .leaf 7 (some 0)]⟩]⟩ : Model).trees
      (⟨[⟨[.test 3 1 .kLE 1 2 true none, .leaf (-(2)) (some 0),
        .leaf 7 (some 0)]⟩]⟩ : Model).trees :=
  c8_commit_idempotent
    ⟨4, [⟨[(0, .test 3 .kLE 1 true 1 2), (1, .leaf (-(2))), (2, .leaf 7)], some 0⟩]⟩
    ⟨[⟨[.test 3 1 .kLE 1 2 true none, .leaf (-(2)) (some 0), .leaf 7 (some 0)]⟩]⟩
    ⟨[⟨[.test 3 1 .kLE 1 2 true none, .leaf (-(2)) (some 0), .leaf 7 (some 0)]⟩]⟩
    (by decide) (by decide)

/-- C9: `PrintOp` is a total function on the operator enumeration, mapping
kEQ, kLT, kLE, kGT, kGE to "==", "<", "<=", ">", ">=" respectively; the
C++ `default: return ""` arm is unreachable because the enumeration has
exactly these five values, as the totality conjunct shows. -/
theorem c9_printOp :
    PrintOp .kEQ = "==" ∧ PrintOp .kLT = "<" ∧ PrintOp .kLE = "<=" ∧
    PrintOp .kGT = ">" ∧ PrintOp .kGE = ">=" ∧
    ∀ op, PrintOp op ∈ ["==", "<", "<=", ">", ">="] := by
  refine ⟨rfl, rfl, rfl, rfl, rfl, ?_⟩
  intro op
  cases op <;> simp [PrintOp]

/-- C10: on every tree of committed shape — nonempty node array, all child
indices in range, every node except index 0 the child of exactly one node,
no cycles — the CLI printing loop started at index 0 terminates within the
`2·n + 1` iteration bound and the printed lines visit each node of the tree
exactly once. -/
theorem c10_printer_terminates (t : CTree) (hs : CTreeShape t) :
    ∃ lines nleaf, cliTreeLoop t (2 * t.nodes.length + 1) [0] = some (lines, nleaf) ∧
      (lines.map Line.nid).Perm (List.range t.nodes.length) := by
  have hnzc := ctShape_zero_not_child t hs
  have hreach := ctShape_reach t hs
  obtain ⟨M, hM, hnd, hb, hQ, hcl⟩ := cliVisitOrder_sound t hs.children_valid
    hs.unique_parent hnzc (2 * t.nodes.length + 1) [0] []
    (by simp)
    (by
      intro x hx
      simp at hx
      subst hx
      exact hs.nonempty)
    (by
      intro x hx
      simp at hx
      exact Or.inl hx)
    (by intro x hx; simp at hx)
    (by simp)
  have hall : ∀ j, j < t.nodes.length → j ∈ M := by
    intro j hj
    have hr := hreach j hj
    clear hj
    induction hr with
    | zero => exact hQ 0 (by simp)
    | step a c _ hedge ih2 =>
      obtain ⟨na, hna, hca⟩ := hedge
      have := hcl a (by simpa using ih2) na hna c hca
      simpa using this
  have h1 : M.Subperm (List.range t.nodes.length) :=
    List.Nodup.subperm (by simpa using hnd)
      (fun x hx => List.mem_range.2 (hb x hx))
  have h2 : (List.range t.nodes.length).Subperm M :=
    List.Nodup.subperm (List.nodup_range _)
      (fun x hx => hall x (List.mem_range.1 hx))
  have hperm : M.Perm (List.range t.nodes.length) := h1.antisymm h2
  obtain ⟨lines, c, hl⟩ :=
    (cliTreeLoop_order t (2 * t.nodes.length + 1) [0]).2 M hM
  obtain ⟨ho, -, -⟩ :=
    (cliTreeLoop_order t (2 * t.nodes.length + 1) [0]).1 lines c hl
  rw [hM] at ho
  have hlm : lines.map Line.nid = M := by simpa using ho.symm
  exact ⟨lines, c, hl, hlm ▸ hperm⟩

/-- C10, witness: the committed three-node scenario tree satisfies the
shape conditions and the loop visits its three nodes exactly once. -/
theorem c10_printer_terminates_witness :
    ∃ lines nleaf,
      cliTreeLoop ⟨[.test 3 1 .kLE 1 2 true none, .leaf (-(2)) (some 0),
          .leaf 7 (some 0)]⟩
        (2 * (⟨[.test 3 1 .kLE 1 2 true none, .leaf (-(2)) (some 0),
          .leaf 7 (some 0)]⟩ : CTree).nodes.length + 1) [0] = some (lines, nleaf) ∧
      (lines.map Line.nid).Perm
        (List.range (⟨[.test 3 1 .kLE 1 2 true none, .leaf (-(2)) (some 0),
          .leaf 7 (some 0)]⟩ : CTree).nodes.length) := by
  apply c10_printer_terminates
  refine ⟨by decide, by decide, by decide, ?_⟩
  intro j
  apply transGen_irrefl_of_levels (fun x : Nat => x)
  rintro a c ⟨n, hn, hc⟩
  have ha : a < 3 := by
    by_contra hge
    push_neg at hge
    rw [List.getElem?_eq_none (by simpa using hge)] at hn
    cases hn
  interval_cases a
  · have hn' : n = CNode.test 3 1 .kLE 1 2 true none := by
      simpa using hn.symm
    subst hn'
    simp only [ctChildren, List.mem_cons, List.mem_singleton] at hc
    rcases hc with rfl | hc
    · decide
    · simp at hc
      subst hc
      decide
  · have hn' : n = CNode.leaf (-(2)) (some 0) := by
      simpa using hn.symm
    subst hn'
    simp [ctChildren] at hc
  · have hn' : n = CNode.leaf 7 (some 0) := by
      simpa using hn.symm
    subst hn'
    simp [ctChildren] at hc

end TreeLite
